import Mathlib

/-!
Verification of the go-fixedwidth fixed-width codec.

Go byte strings are modelled as `List Nat` (each entry a byte value `< 256`),
Go `int` as `Int`, Go `[]int` index tables as `List Nat`.  Fallible Go code
returns `Except`/`Option`; a Go runtime panic (out-of-range index) is modelled
by a distinguished `panicked` outcome where a claim depends on it.
-/

namespace Fixedwidth

/-- A Go `byte`, modelled as a natural number (meaningful values are `< 256`). -/
abbrev Byte := Nat

/-- Bytes of an ASCII Lean string literal (used to write Go string literals). -/
def ascii (s : String) : List Byte := s.data.map Char.toNat

/-- Go's `s[a:b]` slice of a string or slice: elements at positions `[a, b)`. -/
def goSlice {α : Type _} (l : List α) (a b : Nat) : List α := (l.take b).drop a

/-- Go's `copy(dst, src)`: overwrite the first `min |dst| |src|` entries of
`dst` with those of `src` and return the resulting contents of `dst`. -/
def goCopyList (dst src : List Byte) : List Byte :=
  src.take (min dst.length src.length) ++ dst.drop (min dst.length src.length)

/-- Effect on a whole buffer of Go's `copy(buf[pos:], src)`. -/
def writeBytesAt (buf : List Byte) (pos : Nat) (src : List Byte) : List Byte :=
  buf.take pos ++ goCopyList (buf.drop pos) src

/-- Effect on a whole buffer of Go's `copy(buf[pos:pos+sz], src)`. -/
def writeSegAt (buf : List Byte) (pos sz : Nat) (src : List Byte) : List Byte :=
  buf.take pos ++ goCopyList (goSlice buf pos (pos + sz)) src ++ buf.drop (pos + sz)

/-- Go's `strings.Split(s, sep)` for a single-byte separator `sep`. -/
def splitOnByte (sep : Byte) : List Byte → List (List Byte)
  | [] => [[]]
  | b :: rest =>
    let r := splitOnByte sep rest
    if b = sep then [] :: r
    else
      match r with
      | h :: t => (b :: h) :: t
      | [] => [[b]]

/-- Is the byte an ASCII decimal digit? -/
def isDigit (b : Byte) : Bool := 48 ≤ b && b ≤ 57

/-- Value of a nonempty all-digit byte string; `none` otherwise. -/
def digitsVal? (s : List Byte) : Option Nat :=
  if s = [] then none
  else if s.all isDigit then some (s.foldl (fun acc b => acc * 10 + (b - 48)) 0)
  else none

/-- Go's `strconv.Atoi` (= `ParseInt(s, 10, 0)` on a 64-bit platform):
optional single `+`/`-` sign, then at least one decimal digit; errors
(modelled as `none`) on empty input, any non-digit, or 64-bit overflow. -/
def goAtoi (s : List Byte) : Option Int :=
  match s with
  | [] => none
  | b :: rest =>
    let neg := b = 45
    let digits := if b = 43 ∨ b = 45 then rest else b :: rest
    match digitsVal? digits with
    | none => none
    | some n =>
      let v : Int := if neg then -(n : Int) else (n : Int)
      if v < -(2 ^ 63) ∨ (2 ^ 63 - 1 : Int) < v then none else some v

/-- Go's `strconv.ParseUint(s, 10, 64)`: no sign allowed, at least one
decimal digit, errors on overflow past `2^64 - 1`. -/
def goParseUint (s : List Byte) : Option Nat :=
  match digitsVal? s with
  | none => none
  | some n => if 2 ^ 64 - 1 < n then none else some n

/-- Go's `strconv.ParseBool`. -/
def goParseBool (s : List Byte) : Option Bool :=
  if s = ascii "1" ∨ s = ascii "t" ∨ s = ascii "T" ∨ s = ascii "TRUE" ∨
      s = ascii "true" ∨ s = ascii "True" then some true
  else if s = ascii "0" ∨ s = ascii "f" ∨ s = ascii "F" ∨ s = ascii "FALSE" ∨
      s = ascii "false" ∨ s = ascii "False" then some false
  else none

/-- Decimal digits of a natural number, by structural recursion on a fuel
bound (any `fuel ≥ n` suffices, since `n / 10 < n` for `n ≥ 10`). -/
def natToDigitsFuel : Nat → Nat → List Byte
  | 0, n => [48 + n]
  | fuel + 1, n =>
    if n < 10 then [48 + n]
    else natToDigitsFuel fuel (n / 10) ++ [48 + n % 10]

/-- Decimal digits of a natural number (most significant first). -/
def natToDigits (n : Nat) : List Byte := natToDigitsFuel n n

/-- Go's `strconv.Itoa`. -/
def goItoa (i : Int) : List Byte :=
  if i < 0 then 45 :: natToDigits i.natAbs else natToDigits i.toNat

/-- Go's `strconv.FormatUint(n, 10)`. -/
def goFormatUint (n : Nat) : List Byte := natToDigits n

/-- Go's `strconv.FormatBool`. -/
def goFormatBool (b : Bool) : List Byte :=
  if b then ascii "true" else ascii "false"

/-! ## UTF-8 (Go `unicode/utf8`) -/

/-- The size returned by Go's `utf8.DecodeRuneInString` / `utf8.DecodeRune`:
`0` on empty input; the byte length (1–4) of the leading codepoint when the
prefix is a valid UTF-8 encoding; and `1` (`RuneError` consuming one byte)
when the leading byte sequence is invalid.  The second-byte accept ranges
follow Go's `acceptRanges` table (surrogate and overlong exclusion). -/
def utf8DecodeRuneSize (s : List Byte) : Nat :=
  match s with
  | [] => 0
  | b0 :: rest =>
    if b0 < 0x80 then 1
    else if b0 < 0xC2 then 1
    else if b0 < 0xE0 then
      match rest with
      | b1 :: _ => if 0x80 ≤ b1 ∧ b1 ≤ 0xBF then 2 else 1
      | [] => 1
    else if b0 < 0xF0 then
      let lo := if b0 = 0xE0 then 0xA0 else 0x80
      let hi := if b0 = 0xED then 0x9F else 0xBF
      match rest with
      | b1 :: b2 :: _ =>
        if lo ≤ b1 ∧ b1 ≤ hi ∧ 0x80 ≤ b2 ∧ b2 ≤ 0xBF then 3 else 1
      | _ => 1
    else if b0 ≤ 0xF4 then
      let lo := if b0 = 0xF0 then 0x90 else 0x80
      let hi := if b0 = 0xF4 then 0x8F else 0xBF
      match rest with
      | b1 :: b2 :: b3 :: _ =>
        if lo ≤ b1 ∧ b1 ≤ hi ∧ 0x80 ≤ b2 ∧ b2 ≤ 0xBF ∧ 0x80 ≤ b3 ∧ b3 ≤ 0xBF then 4
        else 1
      | _ => 1
    else 1

/-- The byte offsets at which the greedy Go UTF-8 scan of `data` starting at
offset `i` places codepoint boundaries (invalid bytes count as one-byte
`RuneError` codepoints, exactly as `DecodeRuneInString` reports them).
Structural recursion on a fuel bound; `data.length - i` steps always
suffice because each codepoint consumes at least one byte. -/
def codepointStartsFuel (data : List Byte) : Nat → Nat → List Nat
  | 0, _ => []
  | fuel + 1, i =>
    if i < data.length then
      i :: codepointStartsFuel data fuel (i + utf8DecodeRuneSize (data.drop i))
    else []

def codepointStarts (data : List Byte) (i : Nat) : List Nat :=
  codepointStartsFuel data (data.length - i) i

/-- The number of codepoints in a byte string under the greedy Go scan. -/
def codepointCount (data : List Byte) : Nat := (codepointStarts data 0).length

/-! ## `rawValue` (src/buff.go) -/

/-- `rawValue` from src/buff.go: a byte string plus, in codepoint mode, the
byte offset of each codepoint. -/
structure rawValue where
  data : List Byte
  codepointIndices : Option (List Nat) := none
deriving Repr, DecidableEq

/-- `findFirstMultiByteChar` from src/buff.go: index of the first byte with
the high bit set, or the length of the string. -/
def findFirstMultiByteChar : List Byte → Nat
  | [] => 0
  | b :: rest => if b &&& 0x80 = 0x80 then 0 else 1 + findFirstMultiByteChar rest

/-- The index-building loop inside `newRawValue` (src/buff.go lines 193–200):
starting at byte offset `bytesIdx`, append the offset of each codepoint; the
Go code returns the `Invalid codepoint` error if `DecodeRuneInString` ever
reports size 0.  Structural recursion on a fuel bound; `data.length -
bytesIdx` steps always suffice because on a nonempty remainder the reported
size is at least 1. -/
def buildIndicesFuel (data : List Byte) : Nat → Nat → Except String (List Nat)
  | 0, _ => .ok []
  | fuel + 1, bytesIdx =>
    if bytesIdx < data.length then
      let sz := utf8DecodeRuneSize (data.drop bytesIdx)
      if sz = 0 then .error "fixedwidth: Invalid codepoint"
      else
        match buildIndicesFuel data fuel (bytesIdx + sz) with
        | .error e => .error e
        | .ok rest => .ok (bytesIdx :: rest)
    else .ok []

def buildIndices (data : List Byte) (bytesIdx : Nat) : Except String (List Nat) :=
  buildIndicesFuel data (data.length - bytesIdx) bytesIdx

/-- `newRawValue` from src/buff.go: in codepoint mode, if the string has a
high-bit byte, materialize the codepoint index table (identity for the ASCII
prefix, then the scan loop). -/
def newRawValue (data : List Byte) (useCodepointIndices : Bool) :
    Except String rawValue :=
  if useCodepointIndices then
    let bytesIdx := findFirstMultiByteChar data
    if bytesIdx < data.length then
      match buildIndices data bytesIdx with
      | .error e => .error e
      | .ok tail => .ok { data := data, codepointIndices := some (List.range bytesIdx ++ tail) }
    else .ok { data := data }
  else .ok { data := data }

/-- `rawValue.len`: codepoint length when the table is present, else byte length. -/
def rawValue.len (v : rawValue) : Nat :=
  match v.codepointIndices with
  | none => v.data.length
  | some idx => idx.length

/-- `rawValue.byteLen`. -/
def rawValue.byteLen (v : rawValue) : Nat := v.data.length

/-- `rawValue.hasMultiByteChar`. -/
def rawValue.hasMultiByteChar (v : rawValue) : Bool := v.codepointIndices.isSome

/-- `rawValue.byteStartIndex`.  The Go code indexes `codepointIndices[start]`
directly (panicking out of range); every verified use is proved in range, so
an out-of-range access is given the inert default `0`. -/
def rawValue.byteStartIndex (v : rawValue) (start : Nat) : Nat :=
  match v.codepointIndices with
  | none => start
  | some idx => idx.getD start 0

/-- `rawValue.byteEndIndex` (as a Go `int` computation; the result is `-1`
when `endPos + 1` maps to byte offset `0`). -/
def rawValue.byteEndIndex (v : rawValue) (endPos : Int) : Int :=
  match v.codepointIndices with
  | none => endPos
  | some idx =>
    if endPos = (idx.length : Int) - 1 then (v.data.length : Int) - 1
    else ((idx.getD (endPos + 1).toNat 0 : Nat) : Int) - 1

/-- `rawValue.slice`: re-derive a `rawValue` from the byte subrange
`[byteStartIndex start, byteEndIndex end + 1)`. -/
def rawValue.slice (v : rawValue) (start endPos : Nat) : Except String rawValue :=
  newRawValue
    (goSlice v.data (v.byteStartIndex start) ((v.byteEndIndex endPos).toNat + 1))
    v.hasMultiByteChar

/-- The spec's invariant on a raw interval value: when the codepoint table
is present, it has one entry per codepoint of the text and its offsets are
strictly increasing. -/
def rawValue.wf (v : rawValue) : Prop :=
  ∀ idx, v.codepointIndices = some idx →
    idx.length = codepointCount v.data ∧ idx.Chain' (· < ·)

/-! ## Alignment and format (src/unnamed/part_000) -/

/-- Go's `alignment` is a string type; its constants. -/
def defaultAlignment : List Byte := ascii "default"

def noAlignment : List Byte := ascii "none"

def rightAlignment : List Byte := ascii "right"

def leftAlignment : List Byte := ascii "left"

/-- `alignment.Valid`. -/
def alignmentValid (a : List Byte) : Bool :=
  a = defaultAlignment ∨ a = rightAlignment ∨ a = leftAlignment ∨ a = noAlignment

/-- The per-field `format`: alignment and padding byte. -/
structure format where
  alignment : List Byte
  padChar : Byte
deriving Repr, DecidableEq

/-- `defaultFormat`: default alignment, space padding. -/
def defaultFormat : format := { alignment := defaultAlignment, padChar := 32 }

/-! ## Tag parsing (src/unnamed/part_013 lines 98–140) -/

/-- `parseTag`: split the tag on commas into 2–4 parts; parts 1 and 2 are the
start/end positions (Go `int`s via `Atoi`); an optional third part is the
alignment, kept only when it is one of the four valid alignments (a lenient
parse); an optional fourth part resolves the pad byte: `"_"` means space,
`"__"` means underscore, and any other nonempty token contributes its first
byte.  Returns `(startPos, endPos, format, ok)`. -/
def parseTag (tag : List Byte) : Int × Int × format × Bool :=
  let parts := splitOnByte 44 tag
  if parts.length < 2 ∨ 4 < parts.length then (0, 0, defaultFormat, false)
  else
    match goAtoi (parts.getD 0 []) with
    | none => (0, 0, defaultFormat, false)
    | some startPos =>
      match goAtoi (parts.getD 1 []) with
      | none => (0, 0, defaultFormat, false)
      | some endPos =>
        if endPos < startPos ∨ (startPos = 0 ∧ endPos = 0) then
          (0, 0, defaultFormat, false)
        else
          let fmt1 :=
            if 3 ≤ parts.length then
              let a := parts.getD 2 []
              if alignmentValid a then { defaultFormat with alignment := a }
              else defaultFormat
            else defaultFormat
          let fmt2 :=
            if 4 ≤ parts.length then
              let v := parts.getD 3 []
              if v = ascii "_" then { fmt1 with padChar := 32 }
              else if v = ascii "__" then { fmt1 with padChar := 95 }
              else
                match v with
                | b :: _ => { fmt1 with padChar := b }
                | [] => fmt1
            else fmt1
          (startPos, endPos, fmt2, true)

/-- A parsed field spec (src/unnamed/part_013): positions are Go `int`s,
`ok = false` marks an invalid tag (the field is skipped). -/
structure fieldSpec where
  startPos : Int
  endPos : Int
  format : format
  ok : Bool
deriving Repr, DecidableEq

/-- `fieldSpec.len`: the column width `endPos - startPos + 1`. -/
def fieldSpec.len (s : fieldSpec) : Int := s.endPos - s.startPos + 1

/-- Build a `fieldSpec` from a tag string, as `buildStructSpec` does. -/
def fieldSpecOfTag (tag : List Byte) : fieldSpec :=
  let r := parseTag tag
  { startPos := r.1, endPos := r.2.1, format := r.2.2.1, ok := r.2.2.2 }

/-! ## Decode-side trimming and interval extraction (src/decode.go) -/

/-- Go's `strings.TrimLeft(s, cutset)` for a single ASCII cutset byte. -/
def goTrimLeftByte (c : Byte) (s : List Byte) : List Byte :=
  s.dropWhile (· = c)

/-- Go's `strings.TrimRight(s, cutset)` for a single ASCII cutset byte. -/
def goTrimRightByte (c : Byte) (s : List Byte) : List Byte :=
  (s.reverse.dropWhile (· = c)).reverse

/-- The `trimFunc` chosen by `rawValueFromLine`:
`left` trims only trailing pad bytes, `right` only leading pad bytes, and
every other alignment (including `default` and `none`) trims both sides.
(This models `strings.Trim*` for the pad characters the spec concerns,
which are single ASCII bytes.) -/
def trimByAlignment (fmt : format) (s : List Byte) : List Byte :=
  if fmt.alignment = leftAlignment then goTrimRightByte fmt.padChar s
  else if fmt.alignment = rightAlignment then goTrimLeftByte fmt.padChar s
  else goTrimRightByte fmt.padChar (goTrimLeftByte fmt.padChar s)

/-- Outcome of running a piece of Go code that can panic. -/
inductive GoResult (α : Type _)
  | ok (a : α)
  | error (e : String)
  | panicked
deriving Repr, DecidableEq

/-- `rawValueFromLine` (src/decode.go lines 199–245): slice the 1-based
inclusive interval `[startPos, endPos]` out of the line (codepoint-wise when
the index table is present, byte-wise otherwise), clamped at the end of a
short line and empty when the line ends before `startPos`, then trim by
alignment.  A non-positive `startPos` with a nonempty line makes the Go code
index out of range; this is the `panicked` outcome. -/
def rawValueFromLine (value : rawValue) (startPos endPos : Int) (fmt : format) :
    GoResult rawValue :=
  match value.codepointIndices with
  | some idx =>
    if idx.length = 0 ∨ (idx.length : Int) < startPos then
      .ok { data := [] }
    else if startPos ≤ 0 then .panicked
    else if (idx.length : Int) ≤ endPos then
      let relevantIndices := idx.drop (startPos - 1).toNat
      .ok { data := trimByAlignment fmt (value.data.drop (relevantIndices.getD 0 0)),
            codepointIndices := some relevantIndices }
    else
      let relevantIndices := goSlice idx (startPos - 1).toNat endPos.toNat
      .ok { data := trimByAlignment fmt
              (goSlice value.data (relevantIndices.getD 0 0) (idx.getD endPos.toNat 0)),
            codepointIndices := some relevantIndices }
  | none =>
    if value.data.length = 0 ∨ (value.data.length : Int) < startPos then
      .ok { data := [] }
    else if startPos ≤ 0 then .panicked
    else
      let endPos' := if (value.data.length : Int) < endPos then
        (value.data.length : Int) else endPos
      .ok { data := trimByAlignment fmt
              (goSlice value.data (startPos - 1).toNat endPos'.toNat) }

/-! ## Field values and setters (src/decode.go lines 339–394)

A record is modelled as a list of fields; each field carries one of the
scalar kinds the codec converts (string, signed int, unsigned int, bool).
`reflect.New` zero-initializes the target, so decoding starts from the
kind's zero value and each setter receives the current field value. -/

/-- The scalar kinds of the model record. -/
inductive fieldTy
  | str
  | int
  | uint
  | bool
deriving Repr, DecidableEq

/-- A field value of one of the model kinds. -/
inductive fieldVal
  | str (s : List Byte)
  | int (i : Int)
  | uint (n : Nat)
  | bool (b : Bool)
deriving Repr, DecidableEq

/-- The zero value `reflect.New` gives each kind. -/
def fieldTy.zero : fieldTy → fieldVal
  | .str => .str []
  | .int => .int 0
  | .uint => .uint 0
  | .bool => .bool false

/-- The kind of a value. -/
def fieldVal.ty : fieldVal → fieldTy
  | .str _ => .str
  | .int _ => .int
  | .uint _ => .uint
  | .bool _ => .bool

/-- `stringSetter`: store the raw bytes. -/
def stringSetter (_v : List Byte) (raw : rawValue) : Except String (List Byte) :=
  .ok raw.data

/-- `intSetter`: empty data leaves the current value untouched; otherwise
`strconv.Atoi`, whose failure is the conversion error. -/
def intSetter (v : Int) (raw : rawValue) : Except String Int :=
  if raw.data.length < 1 then .ok v
  else
    match goAtoi raw.data with
    | none => .error "strconv.Atoi"
    | some i => .ok i

/-- `uintSetter`: empty data leaves the current value; otherwise
`strconv.ParseUint(s, 10, 64)`. -/
def uintSetter (v : Nat) (raw : rawValue) : Except String Nat :=
  if raw.data.length < 1 then .ok v
  else
    match goParseUint raw.data with
    | none => .error "strconv.ParseUint"
    | some n => .ok n

/-- `boolSetter`: empty data leaves the current value; otherwise
`strconv.ParseBool`. -/
def boolSetter (v : Bool) (raw : rawValue) : Except String Bool :=
  if raw.data.length = 0 then .ok v
  else
    match goParseBool raw.data with
    | none => .error "strconv.ParseBool"
    | some b => .ok b

/-- `floatSetter` (src/decode.go lines 356–368) with `strconv.ParseFloat`
abstracted as the `parse` parameter (binary floating point lies outside this
shallow embedding); the empty-interval check precedes any parse. -/
def floatSetterGen {α : Type _} (parse : List Byte → Option α) (v : α)
    (raw : rawValue) : Except String α :=
  if raw.data.length < 1 then .ok v
  else
    match parse raw.data with
    | none => .error "strconv.ParseFloat"
    | some f => .ok f

/-- `newValueSetter` dispatched on the field kind, applied to the current
field value and the raw interval value. -/
def applySetter (ty : fieldTy) (v : fieldVal) (raw : rawValue) :
    Except String fieldVal :=
  match ty, v with
  | .str, .str s => (stringSetter s raw).map .str
  | .int, .int i => (intSetter i raw).map .int
  | .uint, .uint n => (uintSetter n raw).map .uint
  | .bool, .bool b => (boolSetter b raw).map .bool
  | _, _ => .error "fixedwidth: unknown type"

/-- `structSetter` (src/decode.go lines 282–298): for each valid field spec,
extract the interval via `rawValueFromLine` and run the field's setter on the
zero-initialized field; a setter error aborts the record as an
`UnmarshalTypeError`, an interval panic propagates. -/
def structSetter (specs : List (fieldSpec × fieldTy)) (raw : rawValue) :
    GoResult (List fieldVal) :=
  match specs with
  | [] => .ok []
  | (spec, ty) :: rest =>
    if spec.ok then
      match rawValueFromLine raw spec.startPos spec.endPos spec.format with
      | .panicked => .panicked
      | .error e => .error e
      | .ok fieldRaw =>
        match applySetter ty ty.zero fieldRaw with
        | .error e => .error e
        | .ok v =>
          match structSetter rest raw with
          | .panicked => .panicked
          | .error e => .error e
          | .ok vs => .ok (v :: vs)
    else
      match structSetter rest raw with
      | .panicked => .panicked
      | .error e => .error e
      | .ok vs => .ok (ty.zero :: vs)

/-! ## `lineBuilder` (src/buff.go lines 9–171) -/

/-- The multibyte-aware line buffer: current bytes plus, once any multibyte
content has been written, a codepoint-to-byte-offset table. -/
structure lineBuilder where
  data : List Byte
  codepointIndices : Option (List Nat) := none
deriving Repr, DecidableEq

def lineBuilder.hasMultiByteChar (b : lineBuilder) : Bool :=
  b.codepointIndices.isSome

/-- `initializeIndices`: the identity table, one entry per byte. -/
def lineBuilder.initializeIndices (b : lineBuilder) : lineBuilder :=
  { b with codepointIndices := some (List.range b.data.length) }

/-- `lineBuilder.byteEndIndex` as a Go `int` computation (callers pass
`end = start - 1`, which can be `-1`; then the result is `indices[0] - 1`). -/
def lineBuilder.byteEndIndex (b : lineBuilder) (endC : Int) : Int :=
  match b.codepointIndices with
  | none => endC
  | some idx =>
    if endC = (idx.length : Int) - 1 then (b.data.length : Int) - 1
    else ((idx.getD (endC + 1).toNat 0 : Nat) : Int) - 1

/-- `adjustByteSpan`: grow or shrink the byte span ending at codepoint `endC`
by `diff` bytes (`memmove` of the tail plus extension/truncation), then shift
every codepoint offset after `endC` by `diff`. -/
def lineBuilder.adjustByteSpan (b : lineBuilder) (endC : Int) (diff : Int) :
    lineBuilder :=
  let byteEnd := b.byteEndIndex endC
  let data :=
    if diff < 0 then
      b.data.take (byteEnd + diff).toNat ++ b.data.drop byteEnd.toNat
    else if 0 < diff then
      (b.data ++ List.replicate diff.toNat 32).take (byteEnd + diff).toNat ++
        b.data.drop byteEnd.toNat
    else b.data
  let idx := (b.codepointIndices.getD []).mapIdx
      (fun i x => if endC + 1 ≤ (i : Int) then (((x : Nat) : Int) + diff).toNat else x)
  { data := data, codepointIndices := some idx }

/-- Overwrite `l[pos + i] := repl[i]` for each `i` (in-range in every
verified use; Go would panic past the end). -/
def setRange {α : Type _} (l : List α) (pos : Nat) (repl : List α) : List α :=
  l.take pos ++ repl.take (l.length - pos) ++ l.drop (pos + repl.length)

/-- `correctIndices`: recompute the offset entries for the `value.len()`
codepoints just written at `start`, from the written value's own offsets
(or one byte per codepoint for an ASCII value). -/
def lineBuilder.correctIndices (b : lineBuilder) (start : Nat) (value : rawValue) :
    lineBuilder :=
  let firstIndex : Int := b.byteEndIndex ((start : Int) - 1) + 1
  let idx := b.codepointIndices.getD []
  let offs :=
    match value.codepointIndices with
    | none => (List.range value.len).map (fun i => (firstIndex + i).toNat)
    | some vIdx => vIdx.map (fun s => (firstIndex + s).toNat)
  { b with codepointIndices := some (setRange idx start offs) }

/-- `WriteValue` (src/buff.go lines 47–87): ASCII fast path is a plain byte
copy; otherwise materialize the identity table if needed, compute the target
byte span, grow/shrink it to the value's byte length, copy the value in, and
correct the affected offset entries. -/
def lineBuilder.WriteValue (b : lineBuilder) (start : Nat) (value : rawValue) :
    lineBuilder :=
  if !b.hasMultiByteChar && !value.hasMultiByteChar then
    { b with data := writeBytesAt b.data start value.data }
  else
    let b1 := if !b.hasMultiByteChar && value.hasMultiByteChar then
      b.initializeIndices else b
    let endC : Int := (start : Int) + value.len - 1
    let byteStart : Nat := (b1.codepointIndices.getD []).getD start 0
    let byteEnd : Int := b1.byteEndIndex endC
    let writeSpanLen : Int := byteEnd + 1 - byteStart
    let byteDiff : Int := (value.byteLen : Int) - writeSpanLen
    let b2 := if byteDiff ≠ 0 then b1.adjustByteSpan endC byteDiff else b1
    let byteEnd2 : Int := if byteDiff ≠ 0 then b2.byteEndIndex endC else byteEnd
    let b3 : lineBuilder :=
      { b2 with data := writeSegAt b2.data byteStart (byteEnd2 + 1 - byteStart).toNat value.data }
    if byteDiff ≠ 0 ∨ value.hasMultiByteChar then b3.correctIndices start value
    else b3

/-- `WriteASCII`: write a pad/literal string as a `newRawValue(data, false)`
(no index table regardless of content). -/
def lineBuilder.WriteASCII (b : lineBuilder) (start : Nat) (data : List Byte) :
    lineBuilder :=
  b.WriteValue start { data := data }

/-- `AsRawValue`. -/
def lineBuilder.AsRawValue (b : lineBuilder) : rawValue :=
  { data := b.data, codepointIndices := b.codepointIndices }

/-- The doubling fill loop of `newLineBuilder` (src/buff.go lines 26–30):
`copy(data[filled:], data[:filled])`, doubling `filled`, until the line is
full.  Structural recursion on a fuel bound; `data.length` steps always
suffice because `filled` starts at 1 and doubles each step. -/
def fillLoopFuel : Nat → List Byte → Nat → List Byte
  | 0, data, _ => data
  | fuel + 1, data, filled =>
    if filled < data.length then
      fillLoopFuel fuel (writeBytesAt data filled (data.take filled)) (filled * 2)
    else data

def fillLoop (data : List Byte) (filled : Nat) : List Byte :=
  fillLoopFuel data.length data filled

/-- `newLineBuilder` (src/buff.go lines 21–37): allocate `len` zero bytes
(the Go `cap` argument is a capacity hint with no semantic effect and is
dropped), write the fill character at index 0 — an out-of-bounds write,
i.e. a panic, when `len = 0`, modelled as `none` — then duplicate the
filled prefix until the line is full. -/
def newLineBuilder (len : Nat) (fillChar : Byte) : Option lineBuilder :=
  if len = 0 then none
  else some { data := fillLoop ((List.replicate len (0 : Byte)).set 0 fillChar) 1 }

/-! ## Encoding (src/encode.go) -/

/-- `newValueEncoder` dispatched on the model field kinds: strings go
through `newRawValue` with the encoder's codepoint toggle; numeric and bool
values are formatted by `strconv` and are ASCII. -/
def encodeVal (useCodepointIndices : Bool) : fieldVal → Except String rawValue
  | .str s => newRawValue s useCodepointIndices
  | .int i => newRawValue (goItoa i) false
  | .uint n => newRawValue (goFormatUint n) false
  | .bool b => newRawValue (goFormatBool b) false

/-- Go's `string(b)` for a byte `b`: the UTF-8 encoding of codepoint `b`
(two bytes when `b ≥ 0x80`). -/
def goStringOfByte (c : Byte) : List Byte :=
  if c < 0x80 then [c] else [0xC0 + c / 64, 0x80 + c % 64]

/-- Go's `strings.Repeat(string(c), n)`. -/
def goRepeatByteString (c : Byte) (n : Nat) : List Byte :=
  (List.replicate n (goStringOfByte c)).flatten

/-- `valueEncoder.Write` (src/encode.go lines 174–214): right alignment pads
on the left; left alignment — and the backward-compatible case of default
alignment with a non-space pad — pads on the right; any other
short-value case writes only the value's bytes; an over-long value is
truncated to the column width by `rawValue.slice`.  A non-positive start
position would make the Go writes index out of range (`panicked`). -/
def writeField (useCodepointIndices : Bool) (b : lineBuilder) (v : fieldVal)
    (spec : fieldSpec) : GoResult lineBuilder :=
  match encodeVal useCodepointIndices v with
  | .error e => .error e
  | .ok value =>
    if spec.startPos < 1 then .panicked
    else
      let startIndex : Nat := (spec.startPos - 1).toNat
      if (value.len : Int) < spec.len then
        if spec.format.alignment = rightAlignment then
          let padding := goRepeatByteString spec.format.padChar
            (spec.len - value.len).toNat
          .ok ((b.WriteASCII startIndex padding).WriteValue
            (startIndex + padding.length) value)
        else if spec.format.alignment = leftAlignment ∨
            (spec.format.alignment = defaultAlignment ∧ spec.format.padChar ≠ 32) then
          let padding := goRepeatByteString spec.format.padChar
            (spec.len - value.len).toNat
          .ok ((b.WriteValue startIndex value).WriteASCII
            (startIndex + value.len) padding)
        else
          .ok (b.WriteValue startIndex value)
      else if spec.len < (value.len : Int) then
        match value.slice 0 (spec.len - 1).toNat with
        | .error e => .error e
        | .ok value2 => .ok (b.WriteValue startIndex value2)
      else .ok (b.WriteValue startIndex value)

/-- `ss.ll` as computed by `buildStructSpec`: the max `endPos` over validly
tagged fields. -/
def lineLength (specs : List fieldSpec) : Int :=
  specs.foldl (fun ll s => if s.ok && ll < s.endPos then s.endPos else ll) 0

/-- The field loop of `structEncoder`: write each validly tagged field in
declaration order. -/
def writeFields (useCodepointIndices : Bool) (b : lineBuilder) :
    List (fieldSpec × fieldVal) → GoResult lineBuilder
  | [] => .ok b
  | (spec, v) :: rest =>
    if spec.ok then
      match writeField useCodepointIndices b v spec with
      | .error e => .error e
      | .panicked => .panicked
      | .ok b2 => writeFields useCodepointIndices b2 rest
    else writeFields useCodepointIndices b rest

/-- `structEncoder` (src/encode.go lines 216–241): build a space-filled line
of the struct's line length and write every validly tagged field into it. -/
def structEncoder (useCodepointIndices : Bool)
    (fields : List (fieldSpec × fieldVal)) : GoResult rawValue :=
  let ll := lineLength (fields.map (·.1))
  match newLineBuilder ll.toNat 32 with
  | none => .panicked
  | some b0 =>
    match writeFields useCodepointIndices b0 fields with
    | .error e => .error e
    | .panicked => .panicked
    | .ok b => .ok b.AsRawValue

/-- One-line decode: build the line's `rawValue` (codepoint table when the
decoder's toggle is set) and run `structSetter` — the per-line work of
`Decoder.readLine`. -/
def decodeLine (specs : List (fieldSpec × fieldTy)) (useCodepointIndices : Bool)
    (line : List Byte) : GoResult (List fieldVal) :=
  match newRawValue line useCodepointIndices with
  | .error e => .error e
  | .ok raw => structSetter specs raw

/-! ## Abstract views used to state the layout theorems -/

/-- Replace the `repl.length` entries of `cs` starting at `pos`. -/
def spliceCells {α : Type _} (cs : List α) (pos : Nat) (repl : List α) : List α :=
  cs.take pos ++ repl ++ cs.drop (pos + repl.length)

/-- The text `newValueEncoder` produces for a model field value. -/
def encodeValBytes : fieldVal → List Byte
  | .str s => s
  | .int i => goItoa i
  | .uint n => goFormatUint n
  | .bool b => goFormatBool b

/-- The bytes `valueEncoder.Write` puts into a field's columns in byte mode:
right alignment pads on the left, left alignment — and default alignment
with a non-space pad — pads on the right, any other short value is written
bare (the backward-compatible case), and an over-long value is truncated to
the column width. -/
def renderFieldBytes (fmt : format) (w : Nat) (s : List Byte) : List Byte :=
  if s.length < w then
    if fmt.alignment = rightAlignment then
      List.replicate (w - s.length) fmt.padChar ++ s
    else if fmt.alignment = leftAlignment ∨
        (fmt.alignment = defaultAlignment ∧ fmt.padChar ≠ 32) then
      s ++ List.replicate (w - s.length) fmt.padChar
    else s
  else s.take w

/-- The byte-mode struct encode as a fold of splices, one per validly tagged
field in declaration order. -/
def encodeFieldsBytes : List (fieldSpec × fieldVal) → List Byte → List Byte
  | [], line => line
  | (spec, v) :: rest, line =>
    if spec.ok then
      encodeFieldsBytes rest
        (spliceCells line (spec.startPos - 1).toNat
          (renderFieldBytes spec.format spec.len.toNat (encodeValBytes v)))
    else encodeFieldsBytes rest line

/-- A field spec covering columns 1 through `w` with the default format,
as `parseTag` produces for the tag `"1,w"`. -/
def wholeLineSpec (w : Int) : fieldSpec :=
  { startPos := 1, endPos := w, format := defaultFormat, ok := true }

/-- The bytes a fitting field's interval holds in the encoded line: the
written bytes, completed to the interval's width by the line's space fill
when the write was bare. -/
def segExpected (fmt : format) (w : Nat) (s : List Byte) : List Byte :=
  if fmt.alignment = rightAlignment then
    List.replicate (w - s.length) fmt.padChar ++ s
  else if fmt.alignment = leftAlignment ∨
      (fmt.alignment = defaultAlignment ∧ fmt.padChar ≠ 32) then
    s ++ List.replicate (w - s.length) fmt.padChar
  else s ++ List.replicate (w - s.length) 32

/-- The value lies in the range its Go carrier type can hold: `int` is
64-bit signed, `uint` 64-bit unsigned; strings and bools are unconstrained. -/
def valRange : fieldVal → Bool
  | .str _ => true
  | .int i => decide (-(2 ^ 63) ≤ i) && decide (i ≤ 2 ^ 63 - 1)
  | .uint n => decide (n ≤ 2 ^ 64 - 1)
  | .bool _ => true

/-! ## Streaming decode (src/decode.go lines 107–197) -/

/-- Outcome of a decode entry point: `eof` models `io.EOF`, `error` any
conversion/line error, `panicked` a Go runtime panic. -/
inductive decodeResult (α : Type _)
  | ok (a : α)
  | eof
  | error (e : String)
  | panicked
deriving Repr, DecidableEq

/-- Go's `bytes.Index`: the first occurrence of `term` in `data`. -/
def indexOfSub (data term : List Byte) : Option Nat :=
  if term.isPrefixOf data then some 0
  else
    match data with
    | [] => none
    | _ :: t => (indexOfSub t term).map (· + 1)

/-- One `bufio.Scanner.Scan` step driving `Decoder.scan` (src/decode.go
lines 154–168) with the entire remaining input buffered: `none` when the
input is exhausted; otherwise the next token (the line without its
terminator, or the final non-terminated line at EOF) and the rest of the
input after the advance. -/
def scanLine (term data : List Byte) : Option (List Byte × List Byte) :=
  if data = [] then none
  else
    match indexOfSub data term with
    | some i => some (data.take i, data.drop (i + term.length))
    | none => some (data, [])

/-- `Decoder.Decode` into a struct pointer (src/decode.go lines 107–125,
172–197): scan one line; when the input is exhausted the scanner fails with
no error, `done` is set, and `Decode` maps that to `io.EOF`; otherwise the
line is decoded by `newRawValue` + `structSetter`. -/
def decodeOneStruct (specs : List (fieldSpec × fieldTy)) (useCodepointIndices : Bool)
    (term input : List Byte) : decodeResult (List fieldVal) :=
  match scanLine term input with
  | none => .eof
  | some (token, _rest) =>
    match decodeLine specs useCodepointIndices token with
    | .error e => .error e
    | .panicked => .panicked
    | .ok vs => .ok vs

/-- `Decoder.readLines` (src/decode.go lines 127–143), driving `readLine`
until the input is exhausted: decode each scanned line in order and append
the record; an exhausted input ends the loop with no error.  Structural
recursion on a fuel bound; for a nonempty line terminator every scan
consumes at least one byte, so `input.length + 1` steps always suffice. -/
def readLinesFuel (specs : List (fieldSpec × fieldTy)) (useCodepointIndices : Bool)
    (term : List Byte) : Nat → List Byte → decodeResult (List (List fieldVal))
  | 0, _ => .ok []
  | fuel + 1, input =>
    match scanLine term input with
    | none => .ok []
    | some (token, rest) =>
      match decodeLine specs useCodepointIndices token with
      | .error e => .error e
      | .panicked => .panicked
      | .ok vs =>
        match readLinesFuel specs useCodepointIndices term fuel rest with
        | .ok vss => .ok (vs :: vss)
        | .eof => .eof
        | .error e => .error e
        | .panicked => .panicked

def readLinesAll (specs : List (fieldSpec × fieldTy)) (useCodepointIndices : Bool)
    (term input : List Byte) : decodeResult (List (List fieldVal)) :=
  readLinesFuel specs useCodepointIndices term (input.length + 1) input

/-! ## Theorems -/

theorem utf8DecodeRuneSize_pos (s : List Byte) (h : s ≠ []) :
    0 < utf8DecodeRuneSize s := by
  match s with
  | [] => exact absurd rfl h
  | b0 :: rest =>
    simp only [utf8DecodeRuneSize]
    repeat' split
    all_goals omega

theorem drop_ne_nil_of_lt {data : List Byte} {i : Nat} (h : i < data.length) :
    data.drop i ≠ [] := by
  simpa [List.drop_eq_nil_iff] using Nat.not_le.mpr h

/-- The fuel bound of the codepoint scan is adequate: any two sufficient
fuels give the same boundary list. -/
theorem codepointStartsFuel_congr (data : List Byte) (f1 f2 i : Nat)
    (h1 : data.length - i ≤ f1) (h2 : data.length - i ≤ f2) :
    codepointStartsFuel data f1 i = codepointStartsFuel data f2 i := by
  induction f1 generalizing f2 i with
  | zero =>
    have hni : ¬ i < data.length := by omega
    cases f2 <;> simp [codepointStartsFuel, hni]
  | succ f ih =>
    cases f2 with
    | zero =>
      have hni : ¬ i < data.length := by omega
      simp [codepointStartsFuel, hni]
    | succ f2 =>
      simp only [codepointStartsFuel]
      by_cases h : i < data.length
      · rw [if_pos h, if_pos h]
        have hpos := utf8DecodeRuneSize_pos _ (drop_ne_nil_of_lt h)
        rw [ih f2 (i + utf8DecodeRuneSize (data.drop i)) (by omega) (by omega)]
      · rw [if_neg h, if_neg h]

/-- The Go recurrence satisfied by `codepointStarts`. -/
theorem codepointStarts_eq (data : List Byte) (i : Nat) :
    codepointStarts data i =
      if i < data.length then
        i :: codepointStarts data (i + utf8DecodeRuneSize (data.drop i))
      else [] := by
  unfold codepointStarts
  by_cases h : i < data.length
  · rw [if_pos h]
    have hd : data.length - i = (data.length - i - 1) + 1 := by omega
    rw [hd]
    simp only [codepointStartsFuel, if_pos h]
    congr 1
    exact codepointStartsFuel_congr _ _ _ _
      (by have := utf8DecodeRuneSize_pos _ (drop_ne_nil_of_lt h); omega) (le_refl _)
  · rw [if_neg h]
    have hd : data.length - i = 0 := by omega
    rw [hd]
    rfl

/-- The scan loop of `newRawValue` never takes its error branch:
`DecodeRuneInString` reports size `0` only on an empty string, and the loop
only runs while bytes remain. -/
theorem buildIndicesFuel_eq_ok (data : List Byte) (fuel i : Nat) :
    buildIndicesFuel data fuel i = .ok (codepointStartsFuel data fuel i) := by
  induction fuel generalizing i with
  | zero => rfl
  | succ f ih =>
    simp only [buildIndicesFuel, codepointStartsFuel]
    by_cases h : i < data.length
    · rw [if_pos h, if_pos h]
      have hpos := utf8DecodeRuneSize_pos _ (drop_ne_nil_of_lt h)
      simp only [if_neg (by omega : ¬ utf8DecodeRuneSize (data.drop i) = 0), ih]
    · rw [if_neg h, if_neg h]

theorem buildIndices_eq_ok (data : List Byte) (i : Nat) :
    buildIndices data i = .ok (codepointStarts data i) :=
  buildIndicesFuel_eq_ok data _ i

/-- `newRawValue` in explicit form: it always succeeds. -/
theorem newRawValue_eq_ok (data : List Byte) (useCodepointIndices : Bool) :
    newRawValue data useCodepointIndices =
      .ok { data := data,
            codepointIndices :=
              if useCodepointIndices ∧ findFirstMultiByteChar data < data.length then
                some (List.range (findFirstMultiByteChar data) ++
                  codepointStarts data (findFirstMultiByteChar data))
              else none } := by
  unfold newRawValue
  rcases useCodepointIndices with _ | _
  · simp
  · simp only [if_pos rfl, buildIndices_eq_ok, true_and]
    by_cases h : findFirstMultiByteChar data < data.length
    · simp [h]
    · simp [h]

/-- C2: building the codepoint index never fails, contrary to the claim:
Go's `utf8.DecodeRuneInString` reports size 1 (`RuneError`, one byte) — not
size 0 — for invalid UTF-8 in a nonempty string, so the `Invalid codepoint`
branch of `newRawValue` is unreachable and malformed UTF-8 is indexed as a
sequence of one-byte codepoints.  In particular the lone invalid byte `0xFF`
is accepted with index table `[0]` rather than rejected. -/
theorem newRawValue_never_errors :
    (∀ (data : List Byte) (useCodepointIndices : Bool),
        ∃ v, newRawValue data useCodepointIndices = .ok v ∧ v.data = data) ∧
      newRawValue [0xFF] true =
        .ok { data := [0xFF], codepointIndices := some [0] } := by
  refine ⟨fun data u => ⟨_, newRawValue_eq_ok data u, rfl⟩, ?_⟩
  rfl

theorem splitOnByte_not_mem (sep : Byte) (xs : List Byte) (h : sep ∉ xs) :
    splitOnByte sep xs = [xs] := by
  induction xs with
  | nil => rfl
  | cons b t ih =>
    have hb : ¬ b = sep := fun hbe => h (by simp [hbe])
    have ht : sep ∉ t := fun hte => h (by simp [hte])
    simp only [splitOnByte, if_neg hb, ih ht]

theorem splitOnByte_append (sep : Byte) (xs ys : List Byte) (h : sep ∉ xs) :
    splitOnByte sep (xs ++ sep :: ys) = xs :: splitOnByte sep ys := by
  induction xs with
  | nil => simp [splitOnByte]
  | cons b t ih =>
    have hb : ¬ b = sep := fun hbe => h (by simp [hbe])
    have ht : sep ∉ t := fun hte => h (by simp [hte])
    simp only [List.cons_append, splitOnByte, if_neg hb, List.append_eq, ih ht]

/-- C3 counterexample: the two-byte pad token `ab` — neither `_` nor `__` —
does not invalidate the tag: `parseTag` reports `ok = true` and resolves the
pad character to the token's first byte `a`. -/
theorem parseTag_multibyte_pad_accepted :
    parseTag (ascii "1,5,default,ab") =
      (1, 5, { alignment := defaultAlignment, padChar := 97 }, true) := by
  rfl

/-- C3 amended: in a four-part tag with valid positions, the pad token `_`
resolves to a space, `__` to an underscore, and any other nonempty token
resolves — without invalidating the tag — to its first byte. -/
theorem parseTag_padChar_resolution (pad : List Byte) (hc : (44 : Byte) ∉ pad)
    (hne : pad ≠ []) (h1 : pad ≠ ascii "_") (h2 : pad ≠ ascii "__") :
    parseTag (ascii "1,5,default," ++ pad) =
        (1, 5, { alignment := defaultAlignment, padChar := pad.headD 0 }, true) ∧
      parseTag (ascii "1,5,default,_") =
        (1, 5, { alignment := defaultAlignment, padChar := 32 }, true) ∧
      parseTag (ascii "1,5,default,__") =
        (1, 5, { alignment := defaultAlignment, padChar := 95 }, true) := by
  refine ⟨?_, rfl, rfl⟩
  obtain ⟨b, t, rfl⟩ := List.exists_cons_of_ne_nil hne
  have hpre : ascii "1,5,default," ++ (b :: t) =
      ascii "1" ++ 44 :: (ascii "5" ++ 44 :: (ascii "default" ++ 44 :: (b :: t))) := by
    simp [ascii]
  have hsplit : splitOnByte 44 (ascii "1,5,default," ++ (b :: t)) =
      [ascii "1", ascii "5", ascii "default", b :: t] := by
    rw [hpre, splitOnByte_append 44 (ascii "1") _ (by decide),
      splitOnByte_append 44 (ascii "5") _ (by decide),
      splitOnByte_append 44 (ascii "default") _ (by decide),
      splitOnByte_not_mem 44 (b :: t) hc]
  simp only [parseTag, hsplit]
  norm_num [List.getD]
  rw [if_neg h1, if_neg h2]
  rfl

/-- Witness for `parseTag_padChar_resolution` at the pad token `ab`. -/
theorem parseTag_padChar_resolution_witness :
    parseTag (ascii "1,5,default," ++ ascii "ab") =
        (1, 5, { alignment := defaultAlignment, padChar := (ascii "ab").headD 0 }, true) ∧
      parseTag (ascii "1,5,default,_") =
        (1, 5, { alignment := defaultAlignment, padChar := 32 }, true) ∧
      parseTag (ascii "1,5,default,__") =
        (1, 5, { alignment := defaultAlignment, padChar := 95 }, true) :=
  parseTag_padChar_resolution (ascii "ab") (by decide) (by decide) (by decide)
    (by decide)

theorem goTrimLeftByte_all_pad {c : Byte} {l : List Byte}
    (h : ∀ b ∈ l, b = c) : goTrimLeftByte c l = [] := by
  simpa [goTrimLeftByte, List.dropWhile_eq_nil_iff] using
    fun b hb => decide_eq_true (h b hb)

theorem goTrimRightByte_all_pad {c : Byte} {l : List Byte}
    (h : ∀ b ∈ l, b = c) : goTrimRightByte c l = [] := by
  have : l.reverse.dropWhile (· = c) = [] := by
    simpa [List.dropWhile_eq_nil_iff] using
      fun b hb => decide_eq_true (h b (List.mem_reverse.mp hb))
  simp [goTrimRightByte, this]

/-- All-pad text trims to empty under every alignment. -/
theorem trimByAlignment_all_pad (fmt : format) (l : List Byte)
    (h : ∀ b ∈ l, b = fmt.padChar) : trimByAlignment fmt l = [] := by
  unfold trimByAlignment
  split
  · exact goTrimRightByte_all_pad h
  · split
    · exact goTrimLeftByte_all_pad h
    · rw [goTrimLeftByte_all_pad h]
      exact goTrimRightByte_all_pad (by simp)

theorem applySetter_empty_zero (ty : fieldTy) (raw : rawValue)
    (hraw : raw.data = []) : applySetter ty ty.zero raw = .ok ty.zero := by
  cases ty <;>
    simp [applySetter, fieldTy.zero, stringSetter, intSetter, uintSetter,
      boolSetter, hraw, Except.map]

/-- Byte-mode interval extraction never fails for a 1-based start. -/
theorem rawValueFromLine_byte_ok (line : List Byte) (s e : Int) (fmt : format)
    (h1 : 1 ≤ s) : ∃ r, rawValueFromLine { data := line } s e fmt = .ok r := by
  unfold rawValueFromLine
  simp only
  split
  · exact ⟨_, rfl⟩
  · rw [if_neg (by omega)]
    exact ⟨_, rfl⟩

/-- C7: an interval whose trimmed text is empty decodes without error and
leaves every numeric/boolean field at its zero value: all-pad text trims to
empty under the field's own pad character; the int, uint, bool — and float,
with its parser abstracted — setters all return their input untouched on
empty data; and a single-field struct decoded from an all-pad line yields
the field kind's zero value. -/
theorem empty_interval_decodes_to_zero
    (fmt : format) (n : Nat) (v1 : Int) (v2 : Nat) (v3 : Bool)
    (parse : List Byte → Option Unit) (v4 : Unit)
    (raw : rawValue) (hraw : raw.data = []) :
    trimByAlignment fmt (List.replicate n fmt.padChar) = [] ∧
      intSetter v1 raw = .ok v1 ∧
      uintSetter v2 raw = .ok v2 ∧
      boolSetter v3 raw = .ok v3 ∧
      floatSetterGen parse v4 raw = .ok v4 ∧
      (∀ (spec : fieldSpec) (ty : fieldTy) (line : List Byte),
        1 ≤ spec.startPos → spec.startPos ≤ spec.endPos →
        (∀ b ∈ line, b = spec.format.padChar) →
        structSetter [(spec, ty)] { data := line } = .ok [ty.zero]) := by
  refine ⟨trimByAlignment_all_pad fmt _ (by simp +contextual),
    by simp [intSetter, hraw], by simp [uintSetter, hraw],
    by simp [boolSetter, hraw], by simp [floatSetterGen, hraw], ?_⟩
  intro spec ty line h1 h2 hline
  have hext : ∀ r, rawValueFromLine { data := line }
      spec.startPos spec.endPos spec.format = .ok r → r.data = [] := by
    intro r hr
    unfold rawValueFromLine at hr
    simp only at hr
    split at hr
    · cases hr
      rfl
    · rw [if_neg (by omega)] at hr
      cases hr
      refine trimByAlignment_all_pad _ _ ?_
      intro b hb
      exact hline b (by
        simp only [goSlice] at hb
        exact List.mem_of_mem_take (List.mem_of_mem_drop hb))
  obtain ⟨r, hr⟩ := rawValueFromLine_byte_ok line spec.startPos spec.endPos
    spec.format h1
  unfold structSetter
  rcases hok : spec.ok with _ | _
  · rw [if_neg (by simp [hok])]
    simp [structSetter]
  · rw [if_pos (by simp [hok]), hr]
    simp only
    rw [applySetter_empty_zero ty _ (hext _ hr)]
    simp [structSetter]

/-- Witness for `empty_interval_decodes_to_zero` at concrete zero inputs. -/
theorem empty_interval_decodes_to_zero_witness :
    trimByAlignment defaultFormat (List.replicate 3 defaultFormat.padChar) = [] ∧
      intSetter 0 { data := [] } = .ok 0 ∧
      uintSetter 0 { data := [] } = .ok 0 ∧
      boolSetter false { data := [] } = .ok false ∧
      floatSetterGen (fun _ => none) () { data := [] } = .ok () ∧
      (∀ (spec : fieldSpec) (ty : fieldTy) (line : List Byte),
        1 ≤ spec.startPos → spec.startPos ≤ spec.endPos →
        (∀ b ∈ line, b = spec.format.padChar) →
        structSetter [(spec, ty)] { data := line } = .ok [ty.zero]) :=
  empty_interval_decodes_to_zero defaultFormat 3 0 0 false (fun _ => none) ()
    { data := [] } rfl

/-- C8: decoding from an exhausted source: decode-one into a struct returns
the `io.EOF` sentinel — an outcome distinct from any conversion error and
from success — while decode-all on the same empty input returns success
with zero records. -/
theorem exhausted_input_is_eof (specs : List (fieldSpec × fieldTy))
    (useCodepointIndices : Bool) (term : List Byte) :
    decodeOneStruct specs useCodepointIndices term [] = .eof ∧
      readLinesAll specs useCodepointIndices term [] = .ok [] ∧
      (∀ (e : String) (vs : List fieldVal),
        (decodeResult.eof : decodeResult (List fieldVal)) ≠ .error e ∧
          (decodeResult.eof : decodeResult (List fieldVal)) ≠ .ok vs) :=
  ⟨rfl, rfl, fun _ _ => ⟨by simp, by simp⟩⟩

theorem length_goCopyList (dst src : List Byte) :
    (goCopyList dst src).length = dst.length := by
  simp [goCopyList]

theorem length_writeBytesAt (buf : List Byte) (pos : Nat) (src : List Byte)
    (h : pos ≤ buf.length) : (writeBytesAt buf pos src).length = buf.length := by
  simp [writeBytesAt, length_goCopyList]
  omega

/-- One doubling step of the fill loop keeps the "filled prefix is all
`c`" invariant. -/
theorem writeBytesAt_double (data : List Byte) (filled : Nat) (c : Byte)
    (hlt : filled < data.length)
    (hpre : data.take filled = List.replicate (min filled data.length) c) :
    writeBytesAt data filled (data.take filled) =
      List.replicate (filled + min (data.length - filled) filled) c ++
        data.drop (filled + min (data.length - filled) filled) := by
  have hmin : min filled data.length = filled := by omega
  rw [hmin] at hpre
  set m := min (data.length - filled) filled with hm
  have h1 : min (data.drop filled).length (List.replicate filled c).length = m := by
    simp [hm]
  simp only [writeBytesAt, goCopyList, hpre, h1, List.take_replicate,
    List.drop_drop]
  have h2 : min m filled = m := by omega
  rw [h2, ← List.append_assoc, ← List.replicate_add]

/-- The doubling fill makes the whole line `c`, for any adequate fuel. -/
theorem fillLoopFuel_replicate (fuel : Nat) (data : List Byte) (filled : Nat)
    (c : Byte) (hpos : 0 < filled)
    (hpre : data.take filled = List.replicate (min filled data.length) c)
    (hfuel : data.length ≤ filled * 2 ^ fuel) :
    fillLoopFuel fuel data filled = List.replicate data.length c := by
  induction fuel generalizing data filled with
  | zero =>
    simp only [pow_zero, mul_one] at hfuel
    rw [fillLoopFuel]
    have hmin : min filled data.length = data.length := by omega
    rw [List.take_of_length_le hfuel, hmin] at hpre
    exact hpre
  | succ f ih =>
    rw [fillLoopFuel]
    by_cases h : filled < data.length
    · rw [if_pos h, writeBytesAt_double data filled c h hpre]
      set m := min (data.length - filled) filled with hm
      have hlen : (List.replicate (filled + m) c ++
          data.drop (filled + m)).length = data.length := by
        simp only [List.length_append, List.length_replicate, List.length_drop]
        omega
      refine (ih _ (filled * 2) (by omega) ?_ ?_).trans (by rw [hlen])
      · rw [hlen]
        have hfm : filled + m = min (filled * 2) data.length := by omega
        by_cases h2 : filled * 2 ≤ data.length
        · have : filled + m = filled * 2 := by omega
          rw [this, List.take_append_of_le_length (by simp)]
          simp only [List.take_replicate, min_comm]
          congr 1
          omega
        · have hdr : data.drop (filled + m) = [] := by
            simp only [List.drop_eq_nil_iff]
            omega
          rw [hdr, List.append_nil, List.take_replicate]
          congr 1
          omega
      · rw [hlen]
        calc data.length ≤ filled * 2 ^ (f + 1) := hfuel
        _ = filled * 2 * 2 ^ f := by ring
    · rw [if_neg h]
      have hge : data.length ≤ filled := by omega
      have hmin : min filled data.length = data.length := by omega
      rw [List.take_of_length_le hge, hmin] at hpre
      exact hpre

/-- `newLineBuilder` on a positive length yields the fully filled line. -/
theorem newLineBuilder_pos (len : Nat) (fillChar : Byte) (h : 1 ≤ len) :
    newLineBuilder len fillChar =
      some { data := List.replicate len fillChar, codepointIndices := none } := by
  unfold newLineBuilder
  rw [if_neg (by omega)]
  have hlen : ((List.replicate len (0 : Byte)).set 0 fillChar).length = len := by
    simp
  unfold fillLoop
  rw [hlen, fillLoopFuel_replicate len _ 1 fillChar (by omega) ?_ ?_]
  · rw [hlen]
  · rw [hlen]
    have : min 1 len = 1 := by omega
    rw [this]
    match len, h with
    | n + 1, _ => simp [List.replicate_succ]
  · rw [hlen]
    simp only [one_mul]
    exact le_of_lt (Nat.lt_two_pow len)

theorem lineLength_all_invalid (specs : List fieldSpec)
    (h : ∀ s ∈ specs, s.ok = false) : lineLength specs = 0 := by
  induction specs with
  | nil => rfl
  | cons s rest ih =>
    have hs : s.ok = false := h s (by simp)
    simp only [lineLength, List.foldl_cons, hs, Bool.false_and, if_neg]
    exact ih fun x hx => h x (by simp [hx])

/-- C10: `newLineBuilder` writes the fill character at index 0
unconditionally, so its construction is in bounds exactly when the length is
at least 1 — length 0 is an out-of-bounds write (panic), and any positive
length yields the fully filled line.  A struct whose fields are all
invalidly tagged has computed line length 0, and `structEncoder` panics on
it instead of producing an empty line. -/
theorem newLineBuilder_len_zero_panics :
    (∀ fillChar, newLineBuilder 0 fillChar = none) ∧
      (∀ len fillChar, 1 ≤ len →
        newLineBuilder len fillChar =
          some { data := List.replicate len fillChar, codepointIndices := none }) ∧
      (∀ (useCodepointIndices : Bool) (fields : List (fieldSpec × fieldVal)),
        (∀ f ∈ fields, f.1.ok = false) →
        lineLength (fields.map (·.1)) = 0 ∧
          structEncoder useCodepointIndices fields = .panicked) := by
  refine ⟨fun _ => rfl, newLineBuilder_pos, fun u fields h => ?_⟩
  have hll : lineLength (fields.map (·.1)) = 0 :=
    lineLength_all_invalid _ (by
      intro s hs
      obtain ⟨f, hf, rfl⟩ := List.mem_map.mp hs
      exact h f hf)
  refine ⟨hll, ?_⟩
  unfold structEncoder
  rw [hll]
  rfl

/-- Witness for `newLineBuilder_len_zero_panics` at length 5 and a concrete
untagged-field struct. -/
theorem newLineBuilder_len_zero_panics_witness :
    newLineBuilder 0 32 = none ∧
      newLineBuilder 5 32 =
        some { data := List.replicate 5 32, codepointIndices := none } ∧
      (lineLength ([(fieldSpecOfTag (ascii "bogus"),
            fieldVal.str (ascii "x"))].map (·.1)) = 0 ∧
        structEncoder false
          [(fieldSpecOfTag (ascii "bogus"), fieldVal.str (ascii "x"))] =
            .panicked) :=
  ⟨newLineBuilder_len_zero_panics.1 32,
    newLineBuilder_len_zero_panics.2.1 5 32 (by omega),
    newLineBuilder_len_zero_panics.2.2 false _ (by
      intro f hf
      simp only [List.mem_singleton] at hf
      subst hf
      rfl)⟩

theorem utf8DecodeRuneSize_ascii (b : Byte) (rest : List Byte) (h : b < 0x80) :
    utf8DecodeRuneSize (b :: rest) = 1 := by
  simp [utf8DecodeRuneSize, h]

theorem findFirstMultiByteChar_le (data : List Byte) :
    findFirstMultiByteChar data ≤ data.length := by
  induction data with
  | nil => simp [findFirstMultiByteChar]
  | cons b t ih =>
    simp only [findFirstMultiByteChar, List.length_cons]
    split
    · omega
    · omega

theorem findFirstMultiByteChar_ascii (data : List Byte) (j : Nat)
    (hj : j < findFirstMultiByteChar data) :
    ¬ data.getD j 0 &&& 0x80 = 0x80 := by
  induction data generalizing j with
  | nil => simp [findFirstMultiByteChar] at hj
  | cons b t ih =>
    simp only [findFirstMultiByteChar] at hj
    split at hj
    · omega
    · rename_i hb
      cases j with
      | zero => simpa [List.getD] using hb
      | succ k =>
        simp only [List.getD_cons_succ]
        exact ih k (by omega)

set_option maxRecDepth 4000 in
theorem lt_128_of_land_ne (b : Byte) (hb : b < 256)
    (h : ¬ b &&& 0x80 = 0x80) : b < 0x80 := by
  revert h
  revert hb
  exact (by decide : ∀ b < 256, ¬ b &&& 0x80 = 0x80 → b < 0x80) b

/-- Scanning an all-ASCII prefix advances one byte per codepoint, so the
table built by `newRawValue` — identity up to the first high-bit byte, then
the scan — is exactly the full scan from offset 0. -/
theorem codepointStarts_prefix (data : List Byte) (hdata : ∀ b ∈ data, b < 256) :
    ∀ n j, j ≤ findFirstMultiByteChar data → findFirstMultiByteChar data - j = n →
      codepointStarts data j =
        List.range' j n ++ codepointStarts data (findFirstMultiByteChar data) := by
  intro n
  induction n with
  | zero =>
    intro j h1 h2
    have hj : j = findFirstMultiByteChar data := by omega
    subst hj
    simp [List.range']
  | succ n ih =>
    intro j h1 h2
    have hjlt : j < findFirstMultiByteChar data := by omega
    have hjlen : j < data.length := lt_of_lt_of_le hjlt (findFirstMultiByteChar_le data)
    have hb256 : data.getD j 0 < 256 := by
      refine hdata _ ?_
      rw [List.getD_eq_getElem data 0 hjlen]
      exact List.getElem_mem hjlen
    have hlt : data.getD j 0 < 0x80 :=
      lt_128_of_land_ne _ hb256 (findFirstMultiByteChar_ascii data j hjlt)
    have hdrop : data.drop j = data.getD j 0 :: data.drop (j + 1) := by
      rw [List.drop_eq_getElem_cons hjlen, List.getD_eq_getElem data 0 hjlen]
    rw [codepointStarts_eq, if_pos hjlen, hdrop, utf8DecodeRuneSize_ascii _ _ hlt,
      ih (j + 1) (by omega) (by omega), List.range'_succ]
    rfl

/-- The scan's boundary offsets are strictly increasing and bounded below by
the start offset. -/
theorem codepointStartsFuel_chain (data : List Byte) (fuel : Nat) :
    ∀ i, (codepointStartsFuel data fuel i).Chain' (· < ·) ∧
      ∀ x ∈ codepointStartsFuel data fuel i, i ≤ x := by
  induction fuel with
  | zero => simp [codepointStartsFuel]
  | succ f ih =>
    intro i
    simp only [codepointStartsFuel]
    split
    · rename_i h
      have hpos := utf8DecodeRuneSize_pos _ (drop_ne_nil_of_lt h)
      obtain ⟨hch, hmem⟩ := ih (i + utf8DecodeRuneSize (data.drop i))
      refine ⟨List.chain'_cons'.mpr ⟨fun y hy => ?_, hch⟩, ?_⟩
      · have := hmem y (List.mem_of_mem_head? hy)
        omega
      · intro x hx
        rcases List.mem_cons.mp hx with rfl | hx
        · exact le_refl x
        · have := hmem x hx
          omega
    · simp

theorem codepointStarts_chain (data : List Byte) (i : Nat) :
    (codepointStarts data i).Chain' (· < ·) :=
  (codepointStartsFuel_chain data _ i).1

/-- C9 amended: every value built by `newRawValue` satisfies the offset
invariant, and `rawValue.slice` preserves it (it rebuilds the table with
`newRawValue`).  The per-field slices of `rawValueFromLine` do NOT preserve
it — see the counterexample — because they pair the trimmed text with the
untrimmed, unrebased index slice. -/
theorem rawValue_offset_invariant :
    (∀ data, (∀ b ∈ data, b < 256) →
      ∀ v, newRawValue data true = .ok v → v.wf) ∧
      (∀ v : rawValue, (∀ b ∈ v.data, b < 256) →
        ∀ a b r, v.slice a b = .ok r → r.wf) := by
  have main : ∀ data, (∀ b ∈ data, b < 256) →
      ∀ v, newRawValue data true = .ok v → v.wf := by
    intro data hdata v h
    rw [newRawValue_eq_ok] at h
    injection h with h
    subst h
    intro idx hidx
    simp only at hidx
    by_cases hc : findFirstMultiByteChar data < data.length
    · rw [if_pos ⟨trivial, hc⟩] at hidx
      injection hidx with hidx
      subst hidx
      rw [List.range_eq_range']
      rw [← codepointStarts_prefix data hdata (findFirstMultiByteChar data) 0
        (by omega) (by omega)]
      exact ⟨rfl, codepointStarts_chain data 0⟩
    · rw [if_neg (by simp [hc])] at hidx
      exact absurd hidx (by simp)
  refine ⟨main, fun v hdata a b r h => ?_⟩
  unfold rawValue.slice at h
  rcases hm : v.hasMultiByteChar with _ | _
  · rw [hm] at h
    rw [newRawValue_eq_ok] at h
    injection h with h
    subst h
    intro idx hidx
    simp only at hidx
    exact absurd hidx (by simp)
  · rw [hm] at h
    refine main _ (fun x hx => hdata x ?_) r h
    simp only [goSlice] at hx
    exact List.mem_of_mem_take (List.mem_of_mem_drop hx)

/-- Witness for `rawValue_offset_invariant`: the table of the snowman-plus-
`a` string, and of its one-codepoint slice, both satisfy the invariant. -/
theorem rawValue_offset_invariant_witness :
    rawValue.wf { data := [226, 152, 131, 97], codepointIndices := some [0, 3] } ∧
      rawValue.wf { data := [226, 152, 131], codepointIndices := some [0] } :=
  ⟨rawValue_offset_invariant.1 [226, 152, 131, 97] (by decide) _ rfl,
    rawValue_offset_invariant.2
      { data := [226, 152, 131, 97], codepointIndices := some [0, 3] }
      (by decide) 0 0 _ rfl⟩

/-- C9 counterexample: decoding the line `☃a␣` (five bytes, three
codepoints) in codepoint mode and extracting the field interval `[1,3]`
with the default format trims the trailing space from the text but keeps
the untrimmed three-entry index slice `[0, 3, 4]`: the resulting raw value
has two codepoints of text, a three-entry table, and offsets `3`, `4` that
point past its own data — the claimed invariant fails. -/
theorem rawValueFromLine_breaks_offset_invariant :
    newRawValue [226, 152, 131, 97, 32] true =
        .ok { data := [226, 152, 131, 97, 32], codepointIndices := some [0, 3, 4] } ∧
      rawValueFromLine
          { data := [226, 152, 131, 97, 32], codepointIndices := some [0, 3, 4] }
          1 3 defaultFormat =
        .ok { data := [226, 152, 131, 97], codepointIndices := some [0, 3, 4] } ∧
      ¬ rawValue.wf
          { data := [226, 152, 131, 97], codepointIndices := some [0, 3, 4] } := by
  refine ⟨rfl, rfl, fun h => ?_⟩
  have hlen := (h [0, 3, 4] rfl).1
  have hc : codepointCount [226, 152, 131, 97] = 2 := rfl
  simp only [List.length_cons, List.length_nil] at hlen
  omega

/-! ### Splice algebra -/

theorem getElem?_goSlice {α : Type _} (l : List α) (a b i : Nat) :
    (goSlice l a b)[i]? = if a + i < b then l[a + i]? else none := by
  simp only [goSlice, List.getElem?_drop, List.getElem?_take]

theorem getElem?_spliceCells {α : Type _} (cs : List α) (pos : Nat) (repl : List α)
    (h : pos + repl.length ≤ cs.length) (i : Nat) :
    (spliceCells cs pos repl)[i]? =
      if i < pos then cs[i]?
      else if i < pos + repl.length then repl[i - pos]?
      else cs[i]? := by
  simp only [spliceCells, List.append_assoc]
  by_cases h1 : i < pos
  · rw [List.getElem?_append_left (by simp [List.length_take]; omega),
      List.getElem?_take, if_pos h1, if_pos h1]
  · rw [List.getElem?_append_right (by simp [List.length_take]; omega)]
    simp only [List.length_take]
    have hmin : min pos cs.length = pos := by omega
    rw [hmin]
    by_cases h2 : i < pos + repl.length
    · rw [List.getElem?_append_left (by omega), if_neg h1, if_pos h2]
    · rw [List.getElem?_append_right (by omega), List.getElem?_drop,
        if_neg h1, if_neg h2]
      congr 1
      omega

theorem spliceCells_length {α : Type _} (cs : List α) (pos : Nat) (repl : List α)
    (h : pos + repl.length ≤ cs.length) :
    (spliceCells cs pos repl).length = cs.length := by
  simp [spliceCells]
  omega

theorem goSlice_spliceCells_untouched {α : Type _} (cs : List α) (pos a b : Nat)
    (repl : List α) (h : pos + repl.length ≤ cs.length)
    (hd : b ≤ pos ∨ pos + repl.length ≤ a) :
    goSlice (spliceCells cs pos repl) a b = goSlice cs a b := by
  apply List.ext_getElem?
  intro i
  rw [getElem?_goSlice, getElem?_goSlice]
  split
  · rw [getElem?_spliceCells _ _ _ h]
    rename_i hi
    rcases hd with hd | hd
    · rw [if_pos (by omega)]
    · rw [if_neg (by omega), if_neg (by omega)]
  · rfl

theorem goSlice_spliceCells_left {α : Type _} (cs : List α) (pos b : Nat)
    (repl : List α) (h : pos + repl.length ≤ cs.length)
    (hb1 : pos + repl.length ≤ b) :
    goSlice (spliceCells cs pos repl) pos b =
      repl ++ goSlice cs (pos + repl.length) b := by
  apply List.ext_getElem?
  intro i
  rw [getElem?_goSlice]
  by_cases hi : i < repl.length
  · rw [List.getElem?_append_left (by omega), if_pos (by omega),
      getElem?_spliceCells _ _ _ h, if_neg (by omega), if_pos (by omega)]
    congr 1
    omega
  · rw [List.getElem?_append_right (by omega), getElem?_goSlice]
    split
    · rename_i hlt
      rw [getElem?_spliceCells _ _ _ h, if_neg (by omega), if_neg (by omega),
        if_pos (by omega)]
      congr 1
      omega
    · rename_i hge
      rw [if_neg (by omega)]

theorem goSlice_spliceCells_exact {α : Type _} (cs : List α) (pos : Nat)
    (repl : List α) (h : pos + repl.length ≤ cs.length) :
    goSlice (spliceCells cs pos repl) pos (pos + repl.length) = repl := by
  rw [goSlice_spliceCells_left cs pos _ repl h (le_refl _)]
  simp [goSlice]

theorem spliceCells_spliceCells {α : Type _} (l : List α) (p : Nat) (a b : List α)
    (h : p + a.length + b.length ≤ l.length) :
    spliceCells (spliceCells l p a) (p + a.length) b = spliceCells l p (a ++ b) := by
  have hA : p + a.length ≤ l.length := by omega
  have hAB : p + (a ++ b).length ≤ l.length := by
    simp only [List.length_append]
    omega
  have hN : (p + a.length) + b.length ≤ (spliceCells l p a).length := by
    rw [spliceCells_length _ _ _ hA]
    omega
  apply List.ext_getElem?
  intro i
  rw [getElem?_spliceCells _ _ _ hN, getElem?_spliceCells _ _ _ hAB,
    getElem?_spliceCells _ _ _ hA]
  simp only [List.length_append]
  split_ifs <;>
    first
      | rfl
      | omega
      | (rw [List.getElem?_append_left (by omega)])
      | (rw [List.getElem?_append_right (by omega)]; congr 1; omega)

/-! ### Byte-mode encoding in explicit form -/

theorem newRawValue_none (data : List Byte) :
    newRawValue data false = .ok { data := data } := rfl

theorem encodeVal_false (v : fieldVal) :
    encodeVal false v = .ok { data := encodeValBytes v } := by
  cases v <;> rfl

theorem goRepeatByteString_ascii (c : Byte) (h : c < 0x80) (n : Nat) :
    goRepeatByteString c n = List.replicate n c := by
  induction n with
  | zero => rfl
  | succ k ih =>
    simp only [goRepeatByteString, List.replicate_succ, List.flatten_cons] at *
    rw [ih]
    simp [goStringOfByte, h, List.replicate_succ]

/-- The ASCII fast path of `WriteValue` is a splice. -/
theorem WriteValue_ascii (data : List Byte) (start : Nat) (v : List Byte)
    (h : start + v.length ≤ data.length) :
    lineBuilder.WriteValue { data := data, codepointIndices := none } start
        { data := v, codepointIndices := none } =
      { data := spliceCells data start v, codepointIndices := none } := by
  unfold lineBuilder.WriteValue
  rw [if_pos (by simp [lineBuilder.hasMultiByteChar, rawValue.hasMultiByteChar])]
  have hmin : min (data.drop start).length v.length = v.length := by
    simp only [List.length_drop]
    omega
  simp only [writeBytesAt, goCopyList, hmin, List.take_length, List.drop_drop,
    spliceCells, lineBuilder.mk.injEq, and_true, List.append_assoc,
    Nat.add_comm v.length start]

theorem renderFieldBytes_length (fmt : format) (w : Nat) (s : List Byte) :
    (renderFieldBytes fmt w s).length ≤ w := by
  unfold renderFieldBytes
  split
  · split
    · simp only [List.length_append, List.length_replicate]
      omega
    · split
      · simp only [List.length_append, List.length_replicate]
        omega
      · omega
  · simp only [List.length_take]
    omega

/-- `valueEncoder.Write` in byte mode, in explicit splice form. -/
theorem writeField_byte (line : List Byte) (v : fieldVal) (spec : fieldSpec)
    (h1 : 1 ≤ spec.startPos) (h2 : spec.startPos ≤ spec.endPos)
    (h3 : spec.endPos ≤ (line.length : Int))
    (hpad : spec.format.padChar < 0x80) :
    writeField false { data := line, codepointIndices := none } v spec =
      .ok { data := spliceCells line (spec.startPos - 1).toNat
              (renderFieldBytes spec.format spec.len.toNat (encodeValBytes v)),
            codepointIndices := none } := by
  unfold writeField
  rw [encodeVal_false]
  dsimp only
  rw [if_neg (by omega)]
  simp only [rawValue.len]
  by_cases hfit : (((encodeValBytes v).length : Int)) < spec.len
  · rw [if_pos hfit]
    have hfitn : (encodeValBytes v).length < spec.len.toNat := by
      simp only [fieldSpec.len] at hfit ⊢
      omega
    have hcnt : (spec.len - ((encodeValBytes v).length : Int)).toNat =
        spec.len.toNat - (encodeValBytes v).length := by
      omega
    by_cases hr : spec.format.alignment = rightAlignment
    · rw [if_pos hr]
      unfold lineBuilder.WriteASCII
      rw [goRepeatByteString_ascii _ hpad]
      rw [WriteValue_ascii line ((spec.startPos - 1).toNat) _ (by
        simp only [List.length_replicate, fieldSpec.len] at *
        omega)]
      rw [WriteValue_ascii _ _ _ (by
        rw [spliceCells_length _ _ _ (by
          simp only [List.length_replicate, fieldSpec.len] at *
          omega)]
        simp only [List.length_replicate, fieldSpec.len] at *
        omega)]
      rw [spliceCells_spliceCells _ _ _ _ (by
        simp only [List.length_replicate, fieldSpec.len] at *
        omega)]
      unfold renderFieldBytes
      rw [if_pos hfitn, if_pos hr, hcnt]
    · rw [if_neg hr]
      by_cases hl : spec.format.alignment = leftAlignment ∨
          (spec.format.alignment = defaultAlignment ∧ spec.format.padChar ≠ 32)
      · rw [if_pos hl]
        unfold lineBuilder.WriteASCII
        rw [goRepeatByteString_ascii _ hpad]
        rw [WriteValue_ascii line ((spec.startPos - 1).toNat) _ (by
          simp only [fieldSpec.len] at *
          omega)]
        rw [WriteValue_ascii _ _ _ (by
          rw [spliceCells_length _ _ _ (by
            simp only [fieldSpec.len] at *
            omega)]
          simp only [List.length_replicate, fieldSpec.len] at *
          omega)]
        rw [spliceCells_spliceCells _ _ _ _ (by
          simp only [List.length_replicate, fieldSpec.len] at *
          omega)]
        unfold renderFieldBytes
        rw [if_pos hfitn, if_neg hr, if_pos hl, hcnt]
      · rw [if_neg hl]
        rw [WriteValue_ascii line ((spec.startPos - 1).toNat) _ (by
          simp only [fieldSpec.len] at *
          omega)]
        unfold renderFieldBytes
        rw [if_pos hfitn, if_neg hr, if_neg hl]
  · rw [if_neg hfit]
    by_cases hgt : spec.len < ((encodeValBytes v).length : Int)
    · rw [if_pos hgt]
      unfold rawValue.slice
      simp only [rawValue.hasMultiByteChar, rawValue.byteStartIndex,
        rawValue.byteEndIndex, Option.isSome_none]
      rw [newRawValue_none]
      dsimp only
      rw [WriteValue_ascii line ((spec.startPos - 1).toNat) _ (by
        simp only [goSlice, List.drop_zero, List.length_take, fieldSpec.len] at *
        omega)]
      unfold renderFieldBytes
      rw [if_neg (by omega)]
      simp only [goSlice, List.drop_zero]
      have hcnt2 : (((spec.len - 1).toNat : Int).toNat + 1) = spec.len.toNat := by
        simp only [fieldSpec.len] at *
        omega
      rw [hcnt2]
    · rw [if_neg hgt]
      rw [WriteValue_ascii line ((spec.startPos - 1).toNat) _ (by
        simp only [fieldSpec.len] at *
        omega)]
      unfold renderFieldBytes
      rw [if_neg (by omega), List.take_of_length_le (by
        simp only [fieldSpec.len] at *
        omega)]

theorem foldl_lineLength_ge_init (specs : List fieldSpec) (init : Int) :
    init ≤ specs.foldl
      (fun ll s => if s.ok && ll < s.endPos then s.endPos else ll) init := by
  induction specs generalizing init with
  | nil => simp
  | cons s rest ih =>
    simp only [List.foldl_cons]
    refine le_trans ?_ (ih _)
    split
    · rename_i hcond
      simp only [Bool.and_eq_true, decide_eq_true_eq] at hcond
      omega
    · exact le_refl _

theorem lineLength_nonneg (specs : List fieldSpec) : 0 ≤ lineLength specs :=
  foldl_lineLength_ge_init specs 0

theorem foldl_lineLength_mono (specs : List fieldSpec) (a b : Int) (h : a ≤ b) :
    specs.foldl (fun ll s => if s.ok && ll < s.endPos then s.endPos else ll) a ≤
      specs.foldl (fun ll s => if s.ok && ll < s.endPos then s.endPos else ll) b := by
  induction specs generalizing a b with
  | nil => simpa
  | cons r rr ihr =>
    simp only [List.foldl_cons]
    refine ihr _ _ ?_
    by_cases hok : r.ok = true
    · by_cases hae : a < r.endPos
      · rw [if_pos (by simp only [hok, Bool.true_and, decide_eq_true_eq]; omega)]
        by_cases hbe : b < r.endPos
        · rw [if_pos (by simp only [hok, Bool.true_and, decide_eq_true_eq]; omega)]
        · rw [if_neg (by simp only [hok, Bool.true_and, decide_eq_true_eq]; omega)]
          omega
      · rw [if_neg (by simp only [hok, Bool.true_and, decide_eq_true_eq]; omega)]
        by_cases hbe : b < r.endPos
        · rw [if_pos (by simp only [hok, Bool.true_and, decide_eq_true_eq]; omega)]
          omega
        · rw [if_neg (by simp only [hok, Bool.true_and, decide_eq_true_eq]; omega)]
          omega
    · simp only [Bool.not_eq_true] at hok
      rw [if_neg (by simp [hok]), if_neg (by simp [hok])]
      omega

theorem endPos_le_lineLength (specs : List fieldSpec) (f : fieldSpec)
    (hf : f ∈ specs) (hok : f.ok = true) : f.endPos ≤ lineLength specs := by
  unfold lineLength
  induction specs with
  | nil => simp at hf
  | cons g rest ih =>
    rcases List.mem_cons.mp hf with rfl | hmem
    · simp only [List.foldl_cons]
      refine le_trans ?_ (foldl_lineLength_ge_init rest _)
      split
      · exact le_refl _
      · rename_i hcond
        simp only [Bool.and_eq_true, decide_eq_true_eq, hok, true_and] at hcond
        omega
    · simp only [List.foldl_cons]
      exact le_trans (ih hmem) (foldl_lineLength_mono rest _ _ (by
        split
        · rename_i hcond
          simp only [Bool.and_eq_true, decide_eq_true_eq] at hcond
          omega
        · exact le_refl _))

/-- The field loop of `structEncoder` in byte mode is the splice fold. -/
theorem writeFields_byte (fields : List (fieldSpec × fieldVal)) (line : List Byte)
    (hspecs : ∀ f ∈ fields, f.1.ok = true →
      1 ≤ f.1.startPos ∧ f.1.startPos ≤ f.1.endPos ∧
        f.1.endPos ≤ (line.length : Int) ∧ f.1.format.padChar < 0x80) :
    writeFields false { data := line, codepointIndices := none } fields =
      .ok { data := encodeFieldsBytes fields line, codepointIndices := none } := by
  induction fields generalizing line with
  | nil => rfl
  | cons fv rest ih =>
    obtain ⟨spec, v⟩ := fv
    simp only [writeFields, encodeFieldsBytes]
    rcases hok : spec.ok with _ | _
    · rw [if_neg (by simp [hok]), if_neg (by simp [hok])]
      exact ih line fun f hf => hspecs f (List.mem_cons_of_mem _ hf)
    · obtain ⟨ha, hb, hc, hd⟩ := hspecs (spec, v) (List.mem_cons_self _ _) hok
      rw [if_pos (by simp [hok]), if_pos (by simp [hok]),
        writeField_byte line v spec ha hb hc hd]
      dsimp only
      have hrlen : (spec.startPos - 1).toNat +
          (renderFieldBytes spec.format spec.len.toNat (encodeValBytes v)).length ≤
            line.length := by
        have := renderFieldBytes_length spec.format spec.len.toNat (encodeValBytes v)
        simp only [fieldSpec.len] at *
        omega
      rw [ih _ fun f hf hfok => ?_]
      have hrest := hspecs f (List.mem_cons_of_mem _ hf) hfok
      rw [spliceCells_length _ _ _ hrlen]
      exact hrest

/-- `structEncoder` in byte mode: the line is the splice fold over a
space-filled line of the struct's line length. -/
theorem structEncoder_byte (fields : List (fieldSpec × fieldVal))
    (hspecs : ∀ f ∈ fields, f.1.ok = true →
      1 ≤ f.1.startPos ∧ f.1.startPos ≤ f.1.endPos ∧ f.1.format.padChar < 0x80)
    (hll : 1 ≤ lineLength (fields.map (·.1))) :
    structEncoder false fields =
      .ok { data := encodeFieldsBytes fields
              (List.replicate (lineLength (fields.map (·.1))).toNat 32),
            codepointIndices := none } := by
  unfold structEncoder
  dsimp only
  rw [newLineBuilder_pos _ _ (by omega)]
  dsimp only
  rw [writeFields_byte _ _ fun f hf hok => ?_]
  · rfl
  · obtain ⟨ha, hb, hd⟩ := hspecs f hf hok
    refine ⟨ha, hb, ?_, hd⟩
    have hle : f.1.endPos ≤ lineLength (fields.map (·.1)) :=
      endPos_le_lineLength _ _ (List.mem_map.mpr ⟨f, hf, rfl⟩) hok
    simp only [List.length_replicate]
    omega

theorem renderFieldBytes_default_space (w : Nat) (s : List Byte)
    (h : s.length ≤ w) : renderFieldBytes defaultFormat w s = s := by
  unfold renderFieldBytes
  split
  · rw [if_neg (by decide), if_neg (by
      simp only [defaultFormat]
      decide)]
  · exact List.take_of_length_le (by omega)

/-- C5: each write places only its value's bytes, in declaration order, so
on two fields sharing the interval `[1, w]` with the default format the
later-declared field wins on the shared columns: the line carries the second
value, then what remains of the first past it, then the space fill.  In
particular two fields tagged `"1,5"` holding `""` and `"val"` encode to
`"val  "`. -/
theorem overlap_later_field_wins (w : Nat) (hw : 1 ≤ w) (s1 s2 : List Byte)
    (h1 : s1.length ≤ w) (h2 : s2.length ≤ w) :
    structEncoder false
        [(wholeLineSpec w, .str s1), (wholeLineSpec w, .str s2)] =
      .ok { data := s2 ++ s1.drop s2.length ++
              List.replicate (w - max s1.length s2.length) 32,
            codepointIndices := none } ∧
      structEncoder false
        [(fieldSpecOfTag (ascii "1,5"), .str []),
          (fieldSpecOfTag (ascii "1,5"), .str (ascii "val"))] =
      .ok { data := ascii "val  ", codepointIndices := none } := by
  refine ⟨?_, rfl⟩
  have hll : lineLength [wholeLineSpec w, wholeLineSpec w] = (w : Int) := by
    have h0 : (0 : Int) < (w : Int) := by omega
    simp [lineLength, wholeLineSpec, h0]
  rw [structEncoder_byte _ (by
    intro f hf hok
    have hspec : f.1 = wholeLineSpec w := by
      rcases List.mem_cons.mp hf with rfl | hf2
      · rfl
      · rcases List.mem_cons.mp hf2 with rfl | hf3
        · rfl
        · simp at hf3
    rw [hspec]
    refine ⟨by simp [wholeLineSpec], by simp [wholeLineSpec]; omega,
      by show (32 : Nat) < 128; decide⟩) (by
    simp only [List.map_cons, List.map_nil]
    rw [hll]
    omega)]
  simp only [List.map_cons, List.map_nil]
  rw [hll]
  have hok : (wholeLineSpec (w : Int)).ok = true := rfl
  have hsp : ((wholeLineSpec (w : Int)).startPos - 1).toNat = 0 := rfl
  have hfmt : (wholeLineSpec (w : Int)).format = defaultFormat := rfl
  have hwidth : (wholeLineSpec (w : Int)).len.toNat = w := by
    simp only [fieldSpec.len, wholeLineSpec]
    omega
  simp only [encodeFieldsBytes, hok, eq_self_iff_true, if_true, hsp, hfmt,
    hwidth, encodeValBytes]
  rw [renderFieldBytes_default_space w s1 h1, renderFieldBytes_default_space w s2 h2]
  simp only [Int.toNat_ofNat, spliceCells, List.take_zero, List.nil_append,
    List.drop_replicate, Nat.zero_add]
  rw [List.drop_append_eq_append_drop, List.drop_replicate]
  rw [← List.append_assoc]
  have hc : w - s1.length - (s2.length - s1.length) =
      w - max s1.length s2.length := by omega
  rw [hc]

/-- Witness for `overlap_later_field_wins` at width 5, values `""`/`"val"`. -/
theorem overlap_later_field_wins_witness :
    structEncoder false
        [(wholeLineSpec 5, .str []), (wholeLineSpec 5, .str (ascii "val"))] =
      .ok { data := ascii "val  ", codepointIndices := none } := by
  exact (overlap_later_field_wins 5 (by decide) [] (ascii "val") (by decide)
    (by decide)).1

theorem goTrimLeftByte_replicate_append (c : Byte) (n : Nat) (xs : List Byte) :
    goTrimLeftByte c (List.replicate n c ++ xs) = goTrimLeftByte c xs := by
  induction n with
  | zero => rfl
  | succ k ih =>
    simp only [List.replicate_succ, List.cons_append, goTrimLeftByte,
      List.dropWhile_cons, decide_eq_true_eq, if_pos rfl] at *
    exact ih

theorem goTrimLeftByte_no_head (c : Byte) (xs : List Byte)
    (h : xs.head? ≠ some c) : goTrimLeftByte c xs = xs := by
  cases xs with
  | nil => rfl
  | cons b t =>
    simp only [List.head?_cons, ne_eq, Option.some.injEq] at h
    simp only [goTrimLeftByte, List.dropWhile_cons, decide_eq_true_eq, if_neg h]

theorem goTrimRightByte_append_replicate (c : Byte) (m : Nat) (xs : List Byte) :
    goTrimRightByte c (xs ++ List.replicate m c) = goTrimRightByte c xs := by
  unfold goTrimRightByte
  rw [List.reverse_append, List.reverse_replicate]
  rw [show (List.replicate m c ++ xs.reverse).dropWhile (· = c) =
    goTrimLeftByte c (List.replicate m c ++ xs.reverse) from rfl]
  rw [goTrimLeftByte_replicate_append]
  rfl

theorem goTrimRightByte_no_last (c : Byte) (xs : List Byte)
    (h : xs.getLast? ≠ some c) : goTrimRightByte c xs = xs := by
  unfold goTrimRightByte
  rw [show xs.reverse.dropWhile (· = c) = goTrimLeftByte c xs.reverse from rfl]
  rw [goTrimLeftByte_no_head c _ (by rwa [List.head?_reverse]), List.reverse_reverse]

theorem head?_append_of_ne_nil {α : Type _} (u v : List α) (h : u ≠ []) :
    (u ++ v).head? = u.head? := by
  cases u with
  | nil => exact absurd rfl h
  | cons b t => rfl

/-- Byte-mode interval extraction in closed form: empty when the line ends
before `startPos`, otherwise the trim of the clamped slice. -/
theorem rawValueFromLine_byte_eq (line : List Byte) (s e : Int) (fmt : format)
    (hs : 1 ≤ s) :
    rawValueFromLine { data := line } s e fmt =
      .ok { data :=
        if line.length = 0 ∨ (line.length : Int) < s then []
        else trimByAlignment fmt (goSlice line (s - 1).toNat
          (min e (line.length : Int)).toNat) } := by
  unfold rawValueFromLine
  dsimp only
  by_cases h0 : line.length = 0 ∨ (line.length : Int) < s
  · rw [if_pos h0, if_pos h0]
  · rw [if_neg h0, if_neg (by omega), if_neg h0]
    have hmin : (if (line.length : Int) < e then (line.length : Int) else e) =
        min e (line.length : Int) := by
      split <;> omega
    rw [hmin]

/-- C6: decoding slices the field's interval — clamped to the end of a short
line, empty when the line ends before `startPos` — and trims it by the pad
character according to alignment: `default` and `none` trim both sides,
`left` only trailing pads, `right` only leading pads.  In particular
decoding `"##foo"` with tag `"1,5,right,#"` yields `"foo"`. -/
theorem decode_trims_by_alignment (c : Byte) (u : List Byte) (n m : Nat)
    (hne : u ≠ []) (hh : u.head? ≠ some c) (hl : u.getLast? ≠ some c) :
    (∀ a, a = defaultAlignment ∨ a = noAlignment →
      rawValueFromLine { data := List.replicate n c ++ u ++ List.replicate m c }
          1 ((n + u.length + m : Nat) : Int) { alignment := a, padChar := c } =
        .ok { data := u }) ∧
      rawValueFromLine { data := List.replicate n c ++ u ++ List.replicate m c }
          1 ((n + u.length + m : Nat) : Int)
          { alignment := leftAlignment, padChar := c } =
        .ok { data := List.replicate n c ++ u } ∧
      rawValueFromLine { data := List.replicate n c ++ u ++ List.replicate m c }
          1 ((n + u.length + m : Nat) : Int)
          { alignment := rightAlignment, padChar := c } =
        .ok { data := u ++ List.replicate m c } ∧
      (∀ (line : List Byte) (s e : Int) (fmt : format), 1 ≤ s →
        ((line.length : Int) < s →
          rawValueFromLine { data := line } s e fmt = .ok { data := [] }) ∧
        ((line.length : Int) ≤ e →
          rawValueFromLine { data := line } s e fmt =
            rawValueFromLine { data := line } s (line.length : Int) fmt)) ∧
      rawValueFromLine { data := ascii "##foo" } 1 5
          { alignment := rightAlignment, padChar := 35 } =
        .ok { data := ascii "foo" } := by
  set L := List.replicate n c ++ u ++ List.replicate m c with hL
  have hLlen : L.length = n + u.length + m := by
    simp [hL]
    omega
  have hune : u.length ≠ 0 := fun h => hne (List.eq_nil_of_length_eq_zero h)
  have hslice : goSlice L (((1 : Int)) - 1).toNat
      (min ((n + u.length + m : Nat) : Int) (L.length : Int)).toNat = L := by
    rw [show ((1 : Int) - 1).toNat = 0 from rfl]
    simp only [goSlice, List.drop_zero]
    refine List.take_of_length_le ?_
    omega
  have hbr : ∀ fmt : format,
      rawValueFromLine { data := L } 1 ((n + u.length + m : Nat) : Int) fmt =
        .ok { data := trimByAlignment fmt L } := by
    intro fmt
    rw [rawValueFromLine_byte_eq _ _ _ _ (by omega)]
    rw [if_neg (by push_neg; constructor <;> omega), hslice]
  have htl : goTrimLeftByte c L = u ++ List.replicate m c := by
    rw [hL, List.append_assoc, goTrimLeftByte_replicate_append,
      goTrimLeftByte_no_head c _ (by rwa [head?_append_of_ne_nil u _ hne])]
  have htr : goTrimRightByte c L = List.replicate n c ++ u := by
    rw [hL, goTrimRightByte_append_replicate,
      goTrimRightByte_no_last c _ (by
        rwa [List.getLast?_append_of_ne_nil _ hne])]
  refine ⟨?_, ?_, ?_, ?_, rfl⟩
  · intro a ha
    rw [hbr]
    have h1 : a ≠ leftAlignment := by
      rcases ha with rfl | rfl <;> decide
    have h2 : a ≠ rightAlignment := by
      rcases ha with rfl | rfl <;> decide
    unfold trimByAlignment
    rw [if_neg (by simpa using h1), if_neg (by simpa using h2), htl,
      goTrimRightByte_append_replicate, goTrimRightByte_no_last c u hl]
  · rw [hbr]
    unfold trimByAlignment
    rw [if_pos (by trivial), htr]
  · rw [hbr]
    unfold trimByAlignment
    rw [if_neg (by show ¬ rightAlignment = leftAlignment; decide),
      if_pos (by trivial), htl]
  · intro line s e fmt hs
    constructor
    · intro hshort
      rw [rawValueFromLine_byte_eq _ _ _ _ hs, if_pos (by omega)]
    · intro hlong
      rw [rawValueFromLine_byte_eq _ _ _ _ hs, rawValueFromLine_byte_eq _ _ _ _ hs]
      have : min e (line.length : Int) = min (line.length : Int) (line.length : Int) := by
        omega
      rw [this]

theorem decode_trims_by_alignment_witness :
    rawValueFromLine
        { data := List.replicate 2 35 ++ ascii "foo" ++ List.replicate 0 35 }
        1 ((2 + (ascii "foo").length + 0 : Nat) : Int)
        { alignment := rightAlignment, padChar := 35 } =
      .ok { data := ascii "foo" ++ List.replicate 0 35 } :=
  (decode_trims_by_alignment 35 (ascii "foo") 2 0 (by decide) (by decide)
    (by decide)).2.2.1

/-- C4 counterexample: the field tagged `"1,4"` with value `"abc de"`
encodes — truncated, without error — to the line `"abc "`, but decoding
that line yields `"abc"`, three bytes rather than the promised exactly four,
because decode pad-trims the truncated prefix. -/
theorem truncated_decode_shorter_than_width :
    structEncoder false [(wholeLineSpec 4, .str (ascii "abc de"))] =
      .ok { data := ascii "abc ", codepointIndices := none } ∧
    rawValueFromLine { data := ascii "abc " } 1 4 defaultFormat =
      .ok { data := ascii "abc" } ∧
    (ascii "abc").length ≠ 4 :=
  ⟨rfl, rfl, by decide⟩

/-- C4 amended: a converted value longer than its column width is truncated
on the right to exactly the column width and encoding returns no error;
decoding that line yields the pad-trim of the width-long truncated prefix,
which is the prefix itself exactly when the prefix neither starts nor ends
with the pad character. -/
theorem encode_truncates_to_width (w : Nat) (hw : 1 ≤ w) (s : List Byte)
    (hlong : w < s.length) :
    structEncoder false [(wholeLineSpec w, .str s)] =
      .ok { data := s.take w, codepointIndices := none } ∧
    (s.take w).length = w ∧
    rawValueFromLine { data := s.take w } 1 ((w : Nat) : Int) defaultFormat =
      .ok { data := goTrimRightByte 32 (goTrimLeftByte 32 (s.take w)) } ∧
    ((s.take w).head? ≠ some 32 → (s.take w).getLast? ≠ some 32 →
      rawValueFromLine { data := s.take w } 1 ((w : Nat) : Int) defaultFormat =
        .ok { data := s.take w }) := by
  have hlen : (s.take w).length = w := by
    rw [List.length_take]
    omega
  have hdec : rawValueFromLine { data := s.take w } 1 ((w : Nat) : Int)
      defaultFormat =
      .ok { data := goTrimRightByte 32 (goTrimLeftByte 32 (s.take w)) } := by
    rw [rawValueFromLine_byte_eq _ _ _ _ (by omega)]
    rw [if_neg (by push_neg; rw [hlen]; constructor <;> omega)]
    rw [hlen]
    have hmin : min ((w : Nat) : Int) ((w : Nat) : Int) = ((w : Nat) : Int) :=
      min_self _
    rw [hmin]
    have hsl : goSlice (s.take w) ((1 : Int) - 1).toNat ((w : Nat) : Int).toNat =
        s.take w := by
      show ((s.take w).take ((w : Nat) : Int).toNat).drop 0 = s.take w
      rw [List.drop_zero]
      exact List.take_of_length_le (by omega)
    rw [hsl]
    unfold trimByAlignment
    rw [if_neg (by show ¬ defaultFormat.alignment = leftAlignment; decide),
      if_neg (by show ¬ defaultFormat.alignment = rightAlignment; decide)]
    rfl
  refine ⟨?_, hlen, hdec, ?_⟩
  · rw [structEncoder_byte _ (by
      intro f hf hok
      have hspec : f.1 = wholeLineSpec w := by
        rcases List.mem_cons.mp hf with rfl | hf2
        · rfl
        · simp at hf2
      rw [hspec]
      refine ⟨by simp [wholeLineSpec], by simp [wholeLineSpec]; omega,
        by show (32 : Nat) < 128; decide⟩) ?hll]
    case hll =>
      simp only [List.map_cons, List.map_nil]
      have h0 : (0 : Int) < ((w : Nat) : Int) := by omega
      simp [lineLength, wholeLineSpec, h0]
      omega
    have hll2 : lineLength (([(wholeLineSpec (w : Nat), fieldVal.str s)].map
        (·.1))) = ((w : Nat) : Int) := by
      simp only [List.map_cons, List.map_nil]
      have h0 : (0 : Int) < ((w : Nat) : Int) := by omega
      simp [lineLength, wholeLineSpec, h0]
    rw [hll2]
    have hok : (wholeLineSpec ((w : Nat) : Int)).ok = true := rfl
    have hsp : ((wholeLineSpec ((w : Nat) : Int)).startPos - 1).toNat = 0 := rfl
    have hfmt : (wholeLineSpec ((w : Nat) : Int)).format = defaultFormat := rfl
    have hwidth : (wholeLineSpec ((w : Nat) : Int)).len.toNat = w := by
      simp only [fieldSpec.len, wholeLineSpec]
      omega
    simp only [encodeFieldsBytes, hok, if_true, hsp, hfmt, hwidth,
      encodeValBytes]
    have hrf : renderFieldBytes defaultFormat w s = s.take w := by
      unfold renderFieldBytes
      rw [if_neg (by omega)]
    rw [hrf]
    simp only [Int.toNat_ofNat, spliceCells, List.take_zero, List.nil_append,
      Nat.zero_add]
    rw [List.drop_replicate]
    simp [hlen]
  · intro hh hl
    rw [hdec, goTrimLeftByte_no_head 32 _ hh, goTrimRightByte_no_last 32 _ hl]

/-- Witness for `encode_truncates_to_width`: width 4 with value `"abc de"`. -/
theorem encode_truncates_to_width_witness :
    structEncoder false [(wholeLineSpec 4, .str (ascii "abc de"))] =
      .ok { data := (ascii "abc de").take 4, codepointIndices := none } :=
  (encode_truncates_to_width 4 (by decide) (ascii "abc de") (by decide)).1

theorem natToDigitsFuel_spec (fuel n : Nat) (h : n ≤ fuel) :
    natToDigitsFuel fuel n ≠ [] ∧
      (∀ b ∈ natToDigitsFuel fuel n, isDigit b = true) ∧
      ∀ a : Nat, (natToDigitsFuel fuel n).foldl
          (fun acc b => acc * 10 + (b - 48)) a =
        a * 10 ^ (natToDigitsFuel fuel n).length + n := by
  induction fuel generalizing n with
  | zero =>
    have hn : n = 0 := by omega
    subst hn
    refine ⟨by simp [natToDigitsFuel], ?_, ?_⟩
    · intro b hb
      simp only [natToDigitsFuel, List.mem_singleton] at hb
      subst hb
      decide
    · intro a
      simp [natToDigitsFuel]
  | succ fuel ih =>
    by_cases h10 : n < 10
    · refine ⟨by simp [natToDigitsFuel, h10], ?_, ?_⟩
      · intro b hb
        simp only [natToDigitsFuel, if_pos h10, List.mem_singleton] at hb
        subst hb
        simp only [isDigit, Bool.and_eq_true, decide_eq_true_eq]
        show (48 : Nat) ≤ 48 + n ∧ 48 + n ≤ 57
        omega
      · intro a
        simp only [natToDigitsFuel, if_pos h10, List.foldl_cons, List.foldl_nil,
          List.length_singleton, pow_one]
        omega
    · obtain ⟨hne, hdig, hfold⟩ := ih (n / 10) (by omega)
      refine ⟨by simp [natToDigitsFuel, h10], ?_, ?_⟩
      · intro b hb
        simp only [natToDigitsFuel, if_neg h10, List.mem_append,
          List.mem_singleton] at hb
        rcases hb with hb | hb
        · exact hdig b hb
        · subst hb
          simp only [isDigit, Bool.and_eq_true, decide_eq_true_eq]
          show (48 : Nat) ≤ 48 + n % 10 ∧ 48 + n % 10 ≤ 57
          omega
      · intro a
        simp only [natToDigitsFuel, if_neg h10, List.foldl_append, List.foldl_cons,
          List.foldl_nil, List.length_append, List.length_singleton]
        rw [hfold a, pow_succ, ← mul_assoc]
        omega

theorem natToDigits_ne_nil (n : Nat) : natToDigits n ≠ [] :=
  (natToDigitsFuel_spec n n (le_refl n)).1

theorem natToDigits_all_digits (n : Nat) :
    ∀ b ∈ natToDigits n, isDigit b = true :=
  (natToDigitsFuel_spec n n (le_refl n)).2.1

theorem digitsVal?_natToDigits (n : Nat) : digitsVal? (natToDigits n) = some n := by
  obtain ⟨hne, hdig, hfold⟩ := natToDigitsFuel_spec n n (le_refl n)
  have hall : (natToDigits n).all isDigit = true :=
    List.all_eq_true.mpr fun x hx => hdig x hx
  have hf : (natToDigits n).foldl (fun acc b => acc * 10 + (b - 48)) 0 =
      0 * 10 ^ (natToDigits n).length + n := hfold 0
  unfold digitsVal?
  rw [if_neg (natToDigits_ne_nil n), if_pos hall, hf]
  simp

theorem goItoa_ne_nil (i : Int) : goItoa i ≠ [] := by
  unfold goItoa
  split
  · simp
  · exact natToDigits_ne_nil _

/-- `strconv.Atoi` inverts `strconv.Itoa` on the 64-bit `int` range. -/
theorem goAtoi_goItoa (i : Int) (h1 : -(2 ^ 63) ≤ i) (h2 : i ≤ 2 ^ 63 - 1) :
    goAtoi (goItoa i) = some i := by
  by_cases hneg : i < 0
  · unfold goItoa
    rw [if_pos hneg]
    unfold goAtoi
    dsimp only
    rw [if_pos (show (45 : Nat) = 43 ∨ (45 : Nat) = 45 from Or.inr rfl)]
    rw [digitsVal?_natToDigits]
    dsimp only
    rw [if_pos (show (45 : Nat) = 45 from rfl)]
    have habs : ((i.natAbs : Nat) : Int) = -i := by omega
    rw [habs]
    rw [if_neg (by omega)]
    congr 1
    omega
  · unfold goItoa
    rw [if_neg hneg]
    rcases hs : natToDigits i.toNat with _ | ⟨b, rest⟩
    · exact absurd hs (natToDigits_ne_nil _)
    · have hdig := natToDigits_all_digits i.toNat b (by rw [hs]; exact List.mem_cons_self _ _)
      simp only [isDigit, Bool.and_eq_true, decide_eq_true_eq] at hdig
      have hd1 : (48 : Nat) ≤ b := hdig.1
      have hb43 : ¬ ((b : Nat) = 43 ∨ (b : Nat) = 45) := by
        rintro (rfl | rfl) <;> omega
      have hb45 : ¬ ((b : Nat) = 45) := by
        rintro rfl
        omega
      unfold goAtoi
      dsimp only
      rw [if_neg hb43]
      rw [← hs, digitsVal?_natToDigits]
      dsimp only
      rw [if_neg hb45]
      have htn : ((i.toNat : Nat) : Int) = i := by omega
      rw [htn]
      rw [if_neg (by omega)]

/-- `strconv.ParseUint` inverts `strconv.FormatUint` on the 64-bit range. -/
theorem goParseUint_goFormatUint (n : Nat) (h : n ≤ 2 ^ 64 - 1) :
    goParseUint (goFormatUint n) = some n := by
  unfold goParseUint goFormatUint
  rw [digitsVal?_natToDigits]
  dsimp only
  rw [if_neg (by omega)]

/-- `strconv.ParseBool` inverts `strconv.FormatBool`. -/
theorem goParseBool_goFormatBool (b : Bool) :
    goParseBool (goFormatBool b) = some b := by
  cases b <;> rfl

/-- Each kind's setter, fed the bytes its encoder produced for an in-range
value, recovers the value on the zero-initialized field. -/
theorem applySetter_roundtrip (v : fieldVal) (h : valRange v = true) :
    applySetter v.ty v.ty.zero { data := encodeValBytes v } = .ok v := by
  cases v with
  | str s => rfl
  | int i =>
    simp only [valRange, Bool.and_eq_true, decide_eq_true_eq] at h
    obtain ⟨h1, h2⟩ := h
    simp only [applySetter, fieldVal.ty, fieldTy.zero, encodeValBytes, intSetter]
    rw [if_neg (by have := List.length_pos.mpr (goItoa_ne_nil i); omega)]
    rw [goAtoi_goItoa i h1 h2]
    rfl
  | uint n =>
    simp only [valRange, decide_eq_true_eq] at h
    simp only [applySetter, fieldVal.ty, fieldTy.zero, encodeValBytes, uintSetter]
    rw [if_neg (by
      have := List.length_pos.mpr (natToDigits_ne_nil n)
      simp only [goFormatUint]
      omega)]
    rw [goParseUint_goFormatUint n h]
    rfl
  | bool b =>
    simp only [applySetter, fieldVal.ty, fieldTy.zero, encodeValBytes, boolSetter]
    rw [if_neg (by cases b <;> decide)]
    rw [goParseBool_goFormatBool b]
    rfl

/-- The written bytes together with the space fill they leave make up
`segExpected`, for a fitting value. -/
theorem renderFieldBytes_fill (fmt : format) (w : Nat) (s : List Byte)
    (h : s.length ≤ w) :
    renderFieldBytes fmt w s ++
      List.replicate (w - (renderFieldBytes fmt w s).length) 32 =
    segExpected fmt w s := by
  unfold renderFieldBytes segExpected
  by_cases hlt : s.length < w
  · rw [if_pos hlt]
    by_cases hr : fmt.alignment = rightAlignment
    · rw [if_pos hr, if_pos hr]
      simp only [List.length_append, List.length_replicate]
      have hz : w - (w - s.length + s.length) = 0 := by omega
      rw [hz]
      simp
    · rw [if_neg hr, if_neg hr]
      by_cases hl : fmt.alignment = leftAlignment ∨
          (fmt.alignment = defaultAlignment ∧ fmt.padChar ≠ 32)
      · rw [if_pos hl, if_pos hl]
        simp only [List.length_append, List.length_replicate]
        have hz : w - (s.length + (w - s.length)) = 0 := by omega
        rw [hz]
        simp
      · rw [if_neg hl, if_neg hl]
  · rw [if_neg hlt, List.take_of_length_le (by omega)]
    have hz : w - s.length = 0 := by omega
    rw [hz]
    split_ifs <;> simp

/-- Decode-side trimming undoes the encode-side padding on a value that
neither starts nor ends with the pad character, for every valid alignment
(`none` only with space padding, as its bare write leans on the space fill). -/
theorem trim_segExpected (fmt : format) (w : Nat) (s : List Byte)
    (hh : s.head? ≠ some fmt.padChar) (hl : s.getLast? ≠ some fmt.padChar)
    (halign : fmt.alignment = defaultAlignment ∨ fmt.alignment = noAlignment ∨
      fmt.alignment = leftAlignment ∨ fmt.alignment = rightAlignment)
    (hnone : fmt.alignment = noAlignment → fmt.padChar = 32) :
    trimByAlignment fmt (segExpected fmt w s) = s := by
  by_cases hs : s = []
  · subst hs
    apply trimByAlignment_all_pad
    intro b hb
    unfold segExpected at hb
    split at hb
    · rw [List.append_nil] at hb
      exact List.eq_of_mem_replicate hb
    · split at hb
      · rw [List.nil_append] at hb
        exact List.eq_of_mem_replicate hb
      · rename_i h1 h2
        rw [List.nil_append] at hb
        have hb32 : b = 32 := List.eq_of_mem_replicate hb
        subst hb32
        rcases halign with ha | ha | ha | ha
        · by_cases hp : fmt.padChar = 32
          · exact hp.symm
          · exact absurd (Or.inr ⟨ha, hp⟩) h2
        · rw [hnone ha]
        · exact absurd (Or.inl ha) h2
        · exact absurd ha h1
  · have key : ∀ k, goTrimRightByte fmt.padChar
        (goTrimLeftByte fmt.padChar (s ++ List.replicate k fmt.padChar)) = s := by
      intro k
      rw [goTrimLeftByte_no_head _ _ (by rwa [head?_append_of_ne_nil s _ hs]),
        goTrimRightByte_append_replicate, goTrimRightByte_no_last _ _ hl]
    unfold trimByAlignment segExpected
    rcases halign with ha | ha | ha | ha
    · rw [if_neg (by rw [ha]; decide), if_neg (by rw [ha]; decide),
        if_neg (by rw [ha]; decide)]
      by_cases hp : fmt.padChar = 32
      · rw [if_neg (by
          rw [ha]
          rintro (hc | ⟨hc, hc2⟩)
          exacts [absurd hc (by decide), hc2 hp])]
        rw [show (32 : Byte) = fmt.padChar from hp.symm]
        exact key _
      · rw [if_pos (Or.inr ⟨ha, hp⟩)]
        exact key _
    · rw [if_neg (by rw [ha]; decide), if_neg (by rw [ha]; decide),
        if_neg (by rw [ha]; decide),
        if_neg (by
          rw [ha]
          rintro (hc | ⟨hc, hc2⟩) <;> exact absurd hc (by decide))]
      rw [show (32 : Byte) = fmt.padChar from (hnone ha).symm]
      exact key _
    · rw [if_pos ha, if_neg (by rw [ha]; decide), if_pos (Or.inl ha)]
      rw [goTrimRightByte_append_replicate, goTrimRightByte_no_last _ _ hl]
    · rw [if_neg (by rw [ha]; decide), if_pos ha, if_pos ha]
      rw [goTrimLeftByte_replicate_append, goTrimLeftByte_no_head _ _ hh]

/-- A slice of a region known to hold one repeated byte. -/
theorem goSlice_all_eq {α : Type _} (l : List α) (a b : Nat) (c : α)
    (hb : b ≤ l.length)
    (h : ∀ i : Nat, a ≤ i → i < b → l[i]? = some c) :
    goSlice l a b = List.replicate (b - a) c := by
  apply List.ext_getElem?
  intro i
  rw [getElem?_goSlice, List.getElem?_replicate]
  by_cases hi : a + i < b
  · rw [if_pos hi, h (a + i) (by omega) hi, if_pos (by omega)]
  · rw [if_neg hi, if_neg (by omega)]

theorem encodeFieldsBytes_length (fs : List (fieldSpec × fieldVal))
    (line : List Byte)
    (h : ∀ f ∈ fs, f.1.ok = true →
      (f.1.startPos - 1).toNat +
        (renderFieldBytes f.1.format f.1.len.toNat (encodeValBytes f.2)).length ≤
      line.length) :
    (encodeFieldsBytes fs line).length = line.length := by
  induction fs generalizing line with
  | nil => rfl
  | cons fv rest ih =>
    obtain ⟨spec, v⟩ := fv
    simp only [encodeFieldsBytes]
    rcases hok : spec.ok with _ | _
    · rw [if_neg (by simp [hok])]
      exact ih _ fun f hf hfok => h f (List.mem_cons_of_mem _ hf) hfok
    · have hhead := h (spec, v) (List.mem_cons_self _ _) hok
      rw [if_pos (by simp [hok])]
      rw [ih _ fun f hf hfok => ?_]
      · exact spliceCells_length _ _ _ hhead
      · rw [spliceCells_length _ _ _ hhead]
        exact h f (List.mem_cons_of_mem _ hf) hfok

/-- Fields that all start at or past `b` leave the prefix `[a, b)` alone. -/
theorem encodeFieldsBytes_slice_untouched (fs : List (fieldSpec × fieldVal))
    (line : List Byte) (a b : Nat)
    (h : ∀ f ∈ fs, f.1.ok = true →
      (f.1.startPos - 1).toNat +
          (renderFieldBytes f.1.format f.1.len.toNat (encodeValBytes f.2)).length ≤
        line.length ∧
      b ≤ (f.1.startPos - 1).toNat) :
    goSlice (encodeFieldsBytes fs line) a b = goSlice line a b := by
  induction fs generalizing line with
  | nil => rfl
  | cons fv rest ih =>
    obtain ⟨spec, v⟩ := fv
    simp only [encodeFieldsBytes]
    rcases hok : spec.ok with _ | _
    · rw [if_neg (by simp [hok])]
      exact ih _ fun f hf hfok => h f (List.mem_cons_of_mem _ hf) hfok
    · obtain ⟨hlen, hbpos⟩ := h (spec, v) (List.mem_cons_self _ _) hok
      rw [if_pos (by simp [hok])]
      rw [ih _ fun f hf hfok => ?_]
      · exact goSlice_spliceCells_untouched _ _ _ _ _ hlen (Or.inl hbpos)
      · rw [spliceCells_length _ _ _ hlen]
        exact h f (List.mem_cons_of_mem _ hf) hfok

/-- Each field's interval of the encoded line holds exactly `segExpected`:
its own written bytes over the space fill, undisturbed by the other
(disjoint, later-placed) fields. -/
theorem encodeFieldsBytes_segment (fs : List (fieldSpec × fieldVal))
    (ln : List Byte)
    (hin : ∀ f ∈ fs, f.1.ok = true ∧ 1 ≤ f.1.startPos ∧
      f.1.startPos ≤ f.1.endPos ∧ f.1.endPos ≤ (ln.length : Int) ∧
      (encodeValBytes f.2).length ≤ f.1.len.toNat)
    (hsorted : List.Pairwise (fun f g => f.1.endPos < g.1.startPos) fs)
    (hbg : ∀ f ∈ fs, ∀ i : Nat, (f.1.startPos - 1).toNat ≤ i →
      i < ln.length → ln[i]? = some 32) :
    ∀ f ∈ fs, goSlice (encodeFieldsBytes fs ln)
        (f.1.startPos - 1).toNat f.1.endPos.toNat =
      segExpected f.1.format f.1.len.toNat (encodeValBytes f.2) := by
  induction fs generalizing ln with
  | nil =>
    intro f hf
    simp at hf
  | cons fv rest ih =>
    obtain ⟨spec, v⟩ := fv
    obtain ⟨hok, hsp1, hspe, hel, hfit⟩ := hin (spec, v) (List.mem_cons_self _ _)
    dsimp only at hok hsp1 hspe hel hfit
    obtain ⟨hhead, htail⟩ := List.pairwise_cons.mp hsorted
    have hrlen := renderFieldBytes_length spec.format spec.len.toNat (encodeValBytes v)
    have hw : (spec.startPos - 1).toNat + spec.len.toNat = spec.endPos.toNat := by
      simp only [fieldSpec.len]
      omega
    have hbound : (spec.startPos - 1).toNat +
        (renderFieldBytes spec.format spec.len.toNat (encodeValBytes v)).length ≤
        ln.length := by omega
    have hline' : (spliceCells ln (spec.startPos - 1).toNat
        (renderFieldBytes spec.format spec.len.toNat (encodeValBytes v))).length =
        ln.length := spliceCells_length _ _ _ hbound
    have hrest_in : ∀ f ∈ rest, f.1.ok = true ∧ 1 ≤ f.1.startPos ∧
        f.1.startPos ≤ f.1.endPos ∧
        f.1.endPos ≤ (((spliceCells ln (spec.startPos - 1).toNat
          (renderFieldBytes spec.format spec.len.toNat (encodeValBytes v))).length :
            Nat) : Int) ∧
        (encodeValBytes f.2).length ≤ f.1.len.toNat := by
      intro f hf
      rw [hline']
      exact hin f (List.mem_cons_of_mem _ hf)
    have hrest_bg : ∀ f ∈ rest, ∀ i : Nat, (f.1.startPos - 1).toNat ≤ i →
        i < (spliceCells ln (spec.startPos - 1).toNat
          (renderFieldBytes spec.format spec.len.toNat (encodeValBytes v))).length →
        (spliceCells ln (spec.startPos - 1).toNat
          (renderFieldBytes spec.format spec.len.toNat (encodeValBytes v)))[i]? =
          some 32 := by
      intro f hf i hi hilen
      rw [hline'] at hilen
      have hgt : spec.endPos < f.1.startPos := hhead f hf
      have hsp1f : 1 ≤ f.1.startPos := (hin f (List.mem_cons_of_mem _ hf)).2.1
      rw [getElem?_spliceCells _ _ _ hbound, if_neg (by omega), if_neg (by omega)]
      exact hbg f (List.mem_cons_of_mem _ hf) i (by omega) hilen
    intro f hf
    rcases List.mem_cons.mp hf with rfl | hf2
    · dsimp only
      simp only [encodeFieldsBytes]
      rw [if_pos hok]
      rw [encodeFieldsBytes_slice_untouched rest
        (spliceCells ln (spec.startPos - 1).toNat
          (renderFieldBytes spec.format spec.len.toNat (encodeValBytes v)))
        (spec.startPos - 1).toNat spec.endPos.toNat fun g hg hgok => ?_]
      · rw [goSlice_spliceCells_left ln (spec.startPos - 1).toNat
          spec.endPos.toNat
          (renderFieldBytes spec.format spec.len.toNat (encodeValBytes v))
          hbound (by omega)]
        rw [goSlice_all_eq ln ((spec.startPos - 1).toNat +
            (renderFieldBytes spec.format spec.len.toNat
              (encodeValBytes v)).length) spec.endPos.toNat 32 (by omega)
          (fun i hi1 hi2 => by
            have hb32 := hbg (spec, v) (List.mem_cons_self _ _) i
            dsimp only at hb32
            exact hb32 (by omega) (by omega))]
        have hcnt : spec.endPos.toNat - ((spec.startPos - 1).toNat +
            (renderFieldBytes spec.format spec.len.toNat
              (encodeValBytes v)).length) =
            spec.len.toNat -
              (renderFieldBytes spec.format spec.len.toNat
                (encodeValBytes v)).length := by omega
        rw [hcnt]
        exact renderFieldBytes_fill spec.format spec.len.toNat (encodeValBytes v) hfit
      · obtain ⟨hgok', hg1, hg2, hg3, hg4⟩ := hrest_in g hg
        have hggt : spec.endPos < g.1.startPos := hhead g hg
        have hgr := renderFieldBytes_length g.1.format g.1.len.toNat (encodeValBytes g.2)
        rw [hline'] at hg3 ⊢
        constructor
        · simp only [fieldSpec.len] at *
          omega
        · omega
    · simp only [encodeFieldsBytes]
      rw [if_pos hok]
      exact ih _ hrest_in htail hrest_bg f hf2

theorem decodeLine_byte (specs : List (fieldSpec × fieldTy)) (l : List Byte) :
    decodeLine specs false l = structSetter specs { data := l } := rfl

/-- `structSetter` recovers the per-field values when each interval extracts
to the field's encoded bytes and each setter inverts its encoder. -/
theorem structSetter_of_segments (fields : List (fieldSpec × fieldVal))
    (encLine : List Byte)
    (h : ∀ f ∈ fields, f.1.ok = true ∧
      rawValueFromLine { data := encLine } f.1.startPos f.1.endPos f.1.format =
        .ok { data := encodeValBytes f.2 } ∧
      applySetter f.2.ty f.2.ty.zero { data := encodeValBytes f.2 } = .ok f.2) :
    structSetter (fields.map fun f => (f.1, f.2.ty)) { data := encLine } =
      .ok (fields.map (·.2)) := by
  induction fields with
  | nil => rfl
  | cons fv rest ih =>
    obtain ⟨spec, v⟩ := fv
    obtain ⟨hok, hraw, hset⟩ := h (spec, v) (List.mem_cons_self _ _)
    dsimp only at hok hraw hset
    simp only [List.map_cons, structSetter]
    rw [if_pos hok, hraw]
    dsimp only
    rw [hset]
    dsimp only
    rw [ih fun f hf => h f (List.mem_cons_of_mem _ hf)]

/-- C1 counterexample: the single-field record tagged `"1,5"` holding the
fitting, ASCII-representable value `" a"` (leading space) encodes to
`" a   "`, which decodes back to `"a"`: the decode-side pad trim breaks the
byte-mode round trip even for fitting, representable values. -/
theorem roundtrip_fails_on_boundary_pad :
    structEncoder false [(wholeLineSpec 5, .str (ascii " a"))] =
      .ok { data := ascii " a   ", codepointIndices := none } ∧
    decodeLine [(wholeLineSpec 5, .str)] false (ascii " a   ") =
      .ok [.str (ascii "a")] ∧
    fieldVal.str (ascii "a") ≠ .str (ascii " a") :=
  ⟨rfl, rfl, by decide⟩

/-- C1 amended: in byte mode, for a record of validly tagged fields in
increasing, pairwise-disjoint column order whose values fit their widths,
lie in their carrier types' ranges, neither start nor end with their pad
character, and use a valid alignment (`none` only with space padding),
decoding the encoding returns exactly the original field values. -/
theorem decode_encode_roundtrip (fields : List (fieldSpec × fieldVal))
    (hne : fields ≠ [])
    (hf : ∀ f ∈ fields, f.1.ok = true ∧ 1 ≤ f.1.startPos ∧
      f.1.startPos ≤ f.1.endPos ∧ f.1.format.padChar < 0x80 ∧
      (encodeValBytes f.2).length ≤ f.1.len.toNat ∧
      (encodeValBytes f.2).head? ≠ some f.1.format.padChar ∧
      (encodeValBytes f.2).getLast? ≠ some f.1.format.padChar ∧
      (f.1.format.alignment = defaultAlignment ∨
        f.1.format.alignment = noAlignment ∨
        f.1.format.alignment = leftAlignment ∨
        f.1.format.alignment = rightAlignment) ∧
      (f.1.format.alignment = noAlignment → f.1.format.padChar = 32) ∧
      valRange f.2 = true)
    (hsorted : List.Pairwise (fun f g => f.1.endPos < g.1.startPos) fields) :
    ∃ encLine, structEncoder false fields =
        .ok { data := encLine, codepointIndices := none } ∧
      decodeLine (fields.map fun f => (f.1, f.2.ty)) false encLine =
        .ok (fields.map (·.2)) := by
  have hll0 : ∀ f ∈ fields, f.1.endPos ≤ lineLength (fields.map (·.1)) := by
    intro f hfm
    exact endPos_le_lineLength _ _ (List.mem_map.mpr ⟨f, hfm, rfl⟩) (hf f hfm).1
  have hll : 1 ≤ lineLength (fields.map (·.1)) := by
    obtain ⟨f0, hf0⟩ := List.exists_mem_of_ne_nil fields hne
    obtain ⟨-, ha, hb, -⟩ := hf f0 hf0
    have hc := hll0 f0 hf0
    omega
  set L := (lineLength (fields.map (·.1))).toNat with hL
  have hLL : ((L : Nat) : Int) = lineLength (fields.map (·.1)) := by omega
  have hrep : (List.replicate L 32 : List Byte).length = L := by simp
  have hinseg : ∀ f ∈ fields, f.1.ok = true ∧ 1 ≤ f.1.startPos ∧
      f.1.startPos ≤ f.1.endPos ∧
      f.1.endPos ≤ (((List.replicate L 32 : List Byte).length : Nat) : Int) ∧
      (encodeValBytes f.2).length ≤ f.1.len.toNat := by
    intro f hfm
    obtain ⟨h1, h2, h3, -, h5, -⟩ := hf f hfm
    refine ⟨h1, h2, h3, ?_, h5⟩
    rw [hrep, hLL]
    exact hll0 f hfm
  have hbg : ∀ f ∈ fields, ∀ i : Nat, (f.1.startPos - 1).toNat ≤ i →
      i < (List.replicate L 32 : List Byte).length →
      (List.replicate L 32 : List Byte)[i]? = some 32 := by
    intro f hfm i hi1 hi2
    rw [hrep] at hi2
    rw [List.getElem?_replicate, if_pos hi2]
  have hseg := encodeFieldsBytes_segment fields (List.replicate L 32)
    hinseg hsorted hbg
  have hlen : (encodeFieldsBytes fields (List.replicate L 32)).length =
      (List.replicate L 32 : List Byte).length := by
    apply encodeFieldsBytes_length
    intro f hfm hok
    obtain ⟨-, h2, h3, -, -, -⟩ := hf f hfm
    have h4 := hll0 f hfm
    have h5 := renderFieldBytes_length f.1.format f.1.len.toNat (encodeValBytes f.2)
    have h6 : f.1.len = f.1.endPos - f.1.startPos + 1 := rfl
    have h7 : (List.replicate L 32 : List Byte).length = L := by simp
    omega
  rw [hrep] at hlen
  refine ⟨encodeFieldsBytes fields (List.replicate L 32), ?_, ?_⟩
  · exact structEncoder_byte fields
      (fun f hfm hok => ⟨(hf f hfm).2.1, (hf f hfm).2.2.1, (hf f hfm).2.2.2.1⟩) hll
  · rw [decodeLine_byte]
    apply structSetter_of_segments
    intro f hfm
    obtain ⟨hok, h1, h2, hpad, hfit, hh, hl, halign, hnone, hrange⟩ := hf f hfm
    refine ⟨hok, ?_, applySetter_roundtrip f.2 hrange⟩
    have hendL := hll0 f hfm
    rw [rawValueFromLine_byte_eq _ _ _ _ h1, hlen]
    rw [if_neg (by push_neg; constructor <;> omega)]
    have hmin : min f.1.endPos ((L : Nat) : Int) = f.1.endPos := by omega
    rw [hmin, hseg f hfm]
    rw [trim_segExpected _ _ _ hh hl halign hnone]

/-- Witness for `decode_encode_roundtrip`: a two-field record — a default
string field `"1,5"` holding `"ab"` and a right-aligned `#`-padded int field
`"6,10,right,#"` holding `-42` — encodes and decodes back to itself. -/
theorem decode_encode_roundtrip_witness :
    ∃ encLine : List Byte, structEncoder false
        [(wholeLineSpec 5, fieldVal.str (ascii "ab")),
          (fieldSpecOfTag (ascii "6,10,right,#"), fieldVal.int (-42))] =
        .ok { data := encLine, codepointIndices := none } ∧
      decodeLine (([(wholeLineSpec 5, fieldVal.str (ascii "ab")),
          (fieldSpecOfTag (ascii "6,10,right,#"), fieldVal.int (-42))] :
            List (fieldSpec × fieldVal)).map
            fun f => (f.1, f.2.ty)) false encLine =
        .ok (([(wholeLineSpec 5, fieldVal.str (ascii "ab")),
          (fieldSpecOfTag (ascii "6,10,right,#"), fieldVal.int (-42))] :
            List (fieldSpec × fieldVal)).map (·.2)) :=
  decode_encode_roundtrip _ (by decide) (by decide) (by decide)

end Fixedwidth
